import Mathlib

/-!
Shallow embedding of `src/intrusive_list.h` (namespace `intrusive`):
an intrusive doubly-linked list with two heap-allocated sentinel nodes
(`head`, `tail`) per list.  The C++ heap is modelled as a total function
from addresses (`Nat`) to `list_element` records; a raw pointer is an
`Option Nat` (`none` = `nullptr`).  Every operation is translated
statement by statement, reading each field from the current heap at the
moment the C++ statement reads it.  Operations that dereference a
pointer (or whose debug `assert` can fire) return `Option`: `none`
models a null-pointer dereference or a failed assertion.
-/

namespace intrusive

/-- The embedded link record: `list_element<Tag>` with fields
`next`, `prev`, both `nullptr`-initialised. -/
structure list_element where
  next : Option Nat := none
  prev : Option Nat := none
deriving DecidableEq, Repr

/-- The C++ heap: a total map from addresses to link records. -/
abbrev Heap := Nat → list_element

/-- Write a whole record at address `a`. -/
def hset (h : Heap) (a : Nat) (e : list_element) : Heap :=
  fun b => if b = a then e else h b

/-- Write only the `next` field at address `a` (models `a->next = n`). -/
def setNext (h : Heap) (a : Nat) (n : Option Nat) : Heap :=
  hset h a ⟨n, (h a).prev⟩

/-- Write only the `prev` field at address `a` (models `a->prev = p`). -/
def setPrev (h : Heap) (a : Nat) (p : Option Nat) : Heap :=
  hset h a ⟨(h a).next, p⟩

/-- `list_element::unlink`:
`if (next) next->prev = prev; if (prev) prev->next = next; prev = next = nullptr;`
Each field is re-read from the heap exactly when the C++ statement reads it. -/
def unlink (h : Heap) (x : Nat) : Heap :=
  let h1 := match (h x).next with
    | some n => setPrev h n ((h x).prev)
    | none => h
  let h2 := match (h1 x).prev with
    | some p => setNext h1 p ((h1 x).next)
    | none => h1
  hset h2 x ⟨none, none⟩

/-- A `list<T, Tag>` object: the addresses of its two sentinel nodes. -/
structure list where
  head : Nat
  tail : Nat
deriving DecidableEq, Repr

/-- `list::empty`: `head->next == tail`. -/
def emptyb (h : Heap) (L : list) : Bool :=
  decide ((h L.head).next = some L.tail)

/-- `list::clear`: `head->next = tail; tail->prev = head;`. -/
def clear (h : Heap) (L : list) : Heap :=
  setPrev (setNext h L.head (some L.tail)) L.tail (some L.head)

/-- `list::push_back(u)`:
`tail->prev->next = &v; v.prev = tail->prev; v.next = tail; tail->prev = &v;`.
`none` iff `tail->prev` is null (impossible in a well-formed list). -/
def push_back (h : Heap) (L : list) (u : Nat) : Option Heap :=
  match (h L.tail).prev with
  | none => none
  | some tp =>
    let h1 := setNext h tp (some u)
    let h2 := setPrev h1 u ((h1 L.tail).prev)
    let h3 := setNext h2 u (some L.tail)
    some (setPrev h3 L.tail (some u))

/-- `list::pop_back`: `assert(!empty()); tail->prev->unlink();`. -/
def pop_back (h : Heap) (L : list) : Option Heap :=
  if emptyb h L then none
  else match (h L.tail).prev with
    | none => none
    | some tp => some (unlink h tp)

/-- `list::back`: `assert(!empty()); return *tail->prev;` (the element's address). -/
def back (h : Heap) (L : list) : Option Nat :=
  if emptyb h L then none else (h L.tail).prev

/-- `list::push_front(u)`:
`head->next->prev = &v; v.next = head->next; v.prev = head; head->next = &v;`. -/
def push_front (h : Heap) (L : list) (u : Nat) : Option Heap :=
  match (h L.head).next with
  | none => none
  | some hn =>
    let h1 := setPrev h hn (some u)
    let h2 := setNext h1 u ((h1 L.head).next)
    let h3 := setPrev h2 u (some L.head)
    some (setNext h3 L.head (some u))

/-- `list::pop_front`: `assert(!empty()); head->next->unlink();`. -/
def pop_front (h : Heap) (L : list) : Option Heap :=
  if emptyb h L then none
  else match (h L.head).next with
    | none => none
    | some hn => some (unlink h hn)

/-- `list::front`: `assert(!empty()); return *head->next;`. -/
def front (h : Heap) (L : list) : Option Nat :=
  if emptyb h L then none else (h L.head).next

/-- `list::erase(pos)`: `assert(pos.me != tail && pos.me != head);
iterator ret(pos.me->next); pos.me->unlink(); return ret;`.
A cursor is the raw pointer it wraps (`Option Nat`); the returned cursor
is captured before the unlink, as in the source. -/
def erase (h : Heap) (L : list) (pos : Option Nat) : Option (Heap × Option Nat) :=
  if pos = some L.tail ∨ pos = some L.head then none
  else match pos with
    | none => none
    | some p => some (unlink h p, (h p).next)

/-- `list::operator=(list&&)`: clears the destination when the source is
empty, otherwise transfers the whole chain by six pointer writes. -/
def opAssign (h : Heap) (dst src : list) : Option Heap :=
  if emptyb h src then some (clear h dst)
  else match (h src.head).next with
    | none => none
    | some sn =>
      let h1 := setPrev h sn (some dst.head)
      let h2 := setNext h1 dst.head ((h1 src.head).next)
      match (h2 src.tail).prev with
      | none => none
      | some tp =>
        let h3 := setNext h2 tp (some dst.tail)
        let h4 := setPrev h3 dst.tail ((h3 src.tail).prev)
        let h5 := setNext h4 src.head (some src.tail)
        some (setPrev h5 src.tail (some src.head))

/-- `list::list(list&&)`: the default member initialisers allocate two
fresh sentinels (`next = prev = nullptr`), then `operator=(move(r))`
runs.  `nh`, `nt` are the fresh sentinel addresses. -/
def moveCtor (h : Heap) (src : list) (nh nt : Nat) : Option (Heap × list) :=
  let h0 := hset (hset h nh ⟨none, none⟩) nt ⟨none, none⟩
  match opAssign h0 ⟨nh, nt⟩ src with
  | none => none
  | some h2 => some (h2, ⟨nh, nt⟩)

/-- `list::~list`:
`if (head->next != tail) head->next->prev = nullptr;
 if (tail->prev != head) tail->prev->next = nullptr;
 delete head; delete tail;`.
The two `delete`s deallocate only the sentinels; deallocation does not
change any element's record, so the model returns the heap after the
two conditional writes. -/
def destruct (h : Heap) (L : list) : Option Heap :=
  let s1 : Option Heap :=
    if (h L.head).next = some L.tail then some h
    else match (h L.head).next with
      | some a => some (setPrev h a none)
      | none => none
  match s1 with
  | none => none
  | some h1 =>
    if (h1 L.tail).prev = some L.head then some h1
    else match (h1 L.tail).prev with
      | some b => some (setNext h1 b none)
      | none => none

/-- `list::splice(pos, other, first, last)`: `assert(pos.me != head);`,
no-op when `pos == first || first == last`, otherwise moves
`[first, last)` by re-pointing the boundary references, statement by
statement as in the source (`true_last = last.me->prev` is captured
once; later reads come from the already-updated heap). -/
def splice (h : Heap) (dst : list) (pos first lst : Option Nat) : Option Heap :=
  if pos = some dst.head then none
  else if pos = first ∨ first = lst then some h
  else match first, lst with
    | some f, some l =>
      match (h l).prev with
      | none => none
      | some tl =>
        match (h f).prev with
        | none => none
        | some fp =>
          let h1 := setNext h fp ((h tl).next)
          match (h1 tl).next with
          | none => none
          | some tln =>
            let h2 := setPrev h1 tln ((h1 f).prev)
            match pos with
            | none => none
            | some po =>
              match (h2 po).prev with
              | none => none
              | some pp =>
                let h3 := setNext h2 pp (some f)
                let h4 := setPrev h3 f ((h3 po).prev)
                let h5 := setPrev h4 po (some tl)
                some (setNext h5 tl (some po))
    | _, _ => none

/-- Forward traversal by repeated `operator++` (`me = me->next`),
collecting visited elements until `stop` is reached; fuelled because the
heap is unconstrained.  `none` = fuel ran out or a null `next`. -/
def trav (h : Heap) : Nat → Nat → Nat → Option (List Nat)
  | 0, a, stop => if a = stop then some [] else none
  | fuel + 1, a, stop =>
    if a = stop then some []
    else match (h a).next with
      | some n => (trav h fuel n stop).map (fun r => a :: r)
      | none => none

/-- Backward traversal by repeated `operator--` (`me = me->prev`). -/
def travB (h : Heap) : Nat → Nat → Nat → Option (List Nat)
  | 0, a, stop => if a = stop then some [] else none
  | fuel + 1, a, stop =>
    if a = stop then some []
    else match (h a).prev with
      | some n => (travB h fuel n stop).map (fun r => a :: r)
      | none => none

/-- Forward traversal of a whole list: from `begin()` (= `head->next`)
to `end()` (= `tail`). -/
def travList (h : Heap) (L : list) (fuel : Nat) : Option (List Nat) :=
  match (h L.head).next with
  | some a => trav h fuel a L.tail
  | none => none

/-- Backward traversal of a whole list: from `--end()` (= `tail->prev`)
down to `head`. -/
def travListB (h : Heap) (L : list) (fuel : Nat) : Option (List Nat) :=
  match (h L.tail).prev with
  | some a => travB h fuel a L.head
  | none => none

/-- `chain h p xs q`: the doubly-linked chain `p ↔ xs(0) ↔ … ↔ xs(n-1) ↔ q`
holds in heap `h` (every forward and backward neighbour pointer of the
segment is set correctly). -/
def chain (h : Heap) : Nat → List Nat → Nat → Prop
  | p, [], q => (h p).next = some q ∧ (h q).prev = some p
  | p, x :: xs, q => (h p).next = some x ∧ (h x).prev = some p ∧ chain h x xs q

instance chainDec (h : Heap) : (p : Nat) → (xs : List Nat) → (q : Nat) → Decidable (chain h p xs q)
  | _, [], _ => inferInstanceAs (Decidable (_ ∧ _))
  | _, x :: xs, q =>
    have : Decidable (chain h x xs q) := chainDec h x xs q
    inferInstanceAs (Decidable (_ ∧ _ ∧ _))

/-- The list representation invariant: the sentinel chain threads
exactly `xs` (in order), all addresses are distinct, and the sentinels'
outer pointers are still `nullptr` (as left by `new list_element`). -/
structure rep (h : Heap) (L : list) (xs : List Nat) : Prop where
  ch : chain h L.head xs L.tail
  nd : (L.head :: L.tail :: xs).Nodup
  hp : (h L.head).prev = none
  tn : (h L.tail).next = none

/-- The four deque-shaped mutations of claim C7. -/
inductive Op where
  | push_back (u : Nat)
  | push_front (u : Nat)
  | pop_back
  | pop_front
deriving DecidableEq, Repr

/-- Run one operation on the heap. -/
def step (h : Heap) (L : list) : Op → Option Heap
  | .push_back u => push_back h L u
  | .push_front u => push_front h L u
  | .pop_back => pop_back h L
  | .pop_front => pop_front h L

/-- Run a whole operation sequence. -/
def runOps (h : Heap) (L : list) : List Op → Option Heap
  | [] => some h
  | op :: r =>
    match step h L op with
    | none => none
    | some h1 => runOps h1 L r

/-- The caller-side preconditions of claim C7: pushes only of unlinked
elements, pops only on non-empty lists. -/
def stepOKb (h : Heap) (L : list) : Op → Bool
  | .push_back u => (h u).next.isNone && (h u).prev.isNone
  | .push_front u => (h u).next.isNone && (h u).prev.isNone
  | .pop_back => !(emptyb h L)
  | .pop_front => !(emptyb h L)

/-- The preconditions hold at every step of the sequence. -/
def runOKb (h : Heap) (L : list) : List Op → Bool
  | [] => true
  | op :: r =>
    stepOKb h L op &&
      (match step h L op with
       | some h1 => runOKb h1 L r
       | none => true)

/-- Reference double-ended-queue semantics for the same operations. -/
def dq : List Nat → List Op → List Nat
  | xs, [] => xs
  | xs, .push_back u :: r => dq (xs ++ [u]) r
  | xs, .push_front u :: r => dq (u :: xs) r
  | xs, .pop_back :: r => dq xs.dropLast r
  | xs, .pop_front :: r => dq xs.tail r

/-! ### Concrete test configurations for the claim witnesses -/

/-- A list object whose sentinels live at addresses 0 (head) and 1 (tail). -/
def exL : list := ⟨0, 1⟩

/-- A second list object with sentinels at 10 (head) and 11 (tail). -/
def exLY : list := ⟨10, 11⟩

/-- Heap of an empty `exL`. -/
def exHE : Heap := fun a =>
  if a = 0 then ⟨some 1, none⟩
  else if a = 1 then ⟨none, some 0⟩
  else ⟨none, none⟩

/-- Heap of `exL` holding the single element 2. -/
def exH1 : Heap := fun a =>
  if a = 0 then ⟨some 2, none⟩
  else if a = 1 then ⟨none, some 2⟩
  else if a = 2 then ⟨some 1, some 0⟩
  else ⟨none, none⟩

/-- Heap of `exL` holding the elements 2, 3 in that order. -/
def exH2 : Heap := fun a =>
  if a = 0 then ⟨some 2, none⟩
  else if a = 1 then ⟨none, some 3⟩
  else if a = 2 then ⟨some 3, some 0⟩
  else if a = 3 then ⟨some 1, some 2⟩
  else ⟨none, none⟩

/-- Heap with `exL` = [2, 3, 4] and `exLY` = [5] simultaneously. -/
def exHXY : Heap := fun a =>
  if a = 0 then ⟨some 2, none⟩
  else if a = 1 then ⟨none, some 4⟩
  else if a = 2 then ⟨some 3, some 0⟩
  else if a = 3 then ⟨some 4, some 2⟩
  else if a = 4 then ⟨some 1, some 3⟩
  else if a = 10 then ⟨some 5, none⟩
  else if a = 11 then ⟨none, some 5⟩
  else if a = 5 then ⟨some 11, some 10⟩
  else ⟨none, none⟩

/-! ### Basic heap lemmas -/

theorem hset_self (h : Heap) (a : Nat) (e : list_element) : hset h a e a = e := by
  simp [hset]

theorem hset_ne (h : Heap) (a : Nat) (e : list_element) (b : Nat) (hb : b ≠ a) :
    hset h a e b = h b := by
  simp [hset, hb]

theorem setNext_self (h : Heap) (a : Nat) (n : Option Nat) :
    setNext h a n a = ⟨n, (h a).prev⟩ := by
  simp [setNext, hset]

theorem setNext_ne (h : Heap) (a : Nat) (n : Option Nat) (b : Nat) (hb : b ≠ a) :
    setNext h a n b = h b := by
  simp [setNext, hset, hb]

theorem setPrev_self (h : Heap) (a : Nat) (p : Option Nat) :
    setPrev h a p a = ⟨(h a).next, p⟩ := by
  simp [setPrev, hset]

theorem setPrev_ne (h : Heap) (a : Nat) (p : Option Nat) (b : Nat) (hb : b ≠ a) :
    setPrev h a p b = h b := by
  simp [setPrev, hset, hb]

/-! ### Chain lemmas -/

theorem chain_append (h : Heap) (y q : Nat) (ys : List Nat) (xs : List Nat) (p : Nat) :
    chain h p (xs ++ y :: ys) q ↔ chain h p xs y ∧ chain h y ys q := by
  induction xs generalizing p with
  | nil => simp only [List.nil_append, chain]; tauto
  | cons x xs ih => simp only [List.cons_append, chain, List.append_eq, ih]; tauto

theorem chain_frame (h h' : Heap) :
    ∀ (xs : List Nat) (p q : Nat),
      chain h p xs q →
      (∀ a ∈ p :: xs, (h' a).next = (h a).next) →
      (∀ a ∈ xs ++ [q], (h' a).prev = (h a).prev) →
      chain h' p xs q
  | [], p, q, hc, hn, hp => by
    refine ⟨?_, ?_⟩
    · rw [hn p (by simp)]; exact hc.1
    · rw [hp q (by simp)]; exact hc.2
  | x :: xs, p, q, hc, hn, hp => by
    refine ⟨?_, ?_, ?_⟩
    · rw [hn p (by simp)]; exact hc.1
    · rw [hp x (by simp)]; exact hc.2.1
    · exact chain_frame h h' xs x q hc.2.2
        (fun a ha => hn a (by simp at ha ⊢; tauto))
        (fun a ha => hp a (by simp at ha ⊢; tauto))

theorem chain_next_eq (h : Heap) :
    ∀ (xs : List Nat) (p q : Nat), chain h p xs q → (h p).next = some (xs.headD q)
  | [], p, q, hc => hc.1
  | x :: xs, p, q, hc => hc.1

theorem chain_headD_prev (h : Heap) :
    ∀ (xs : List Nat) (p q : Nat), chain h p xs q → (h (xs.headD q)).prev = some p
  | [], p, q, hc => hc.2
  | x :: xs, p, q, hc => hc.2.1

theorem chain_prev_eq (h : Heap) :
    ∀ (xs : List Nat) (p q : Nat), chain h p xs q → (h q).prev = some (xs.getLastD p)
  | [], p, q, hc => hc.2
  | x :: xs, p, q, hc => by
    have := chain_prev_eq h xs x q hc.2.2
    rwa [List.getLastD_cons]

theorem chain_getLastD_next (h : Heap) :
    ∀ (xs : List Nat) (p q : Nat), chain h p xs q → (h (xs.getLastD p)).next = some q
  | [], p, q, hc => hc.1
  | x :: xs, p, q, hc => by
    have := chain_getLastD_next h xs x q hc.2.2
    rwa [List.getLastD_cons]

theorem chain_mem_next (h : Heap) :
    ∀ (xs : List Nat) (p q : Nat), chain h p xs q → ∀ x ∈ xs, ∃ n, (h x).next = some n
  | [], _, _, _, x, hx => by simp at hx
  | y :: xs, p, q, hc, x, hx => by
    rcases List.mem_cons.mp hx with rfl | hx
    · exact ⟨_, chain_next_eq h xs x q hc.2.2⟩
    · exact chain_mem_next h xs y q hc.2.2 x hx

theorem chain_mem_prev (h : Heap) :
    ∀ (xs : List Nat) (p q : Nat), chain h p xs q → ∀ x ∈ xs, ∃ n, (h x).prev = some n
  | [], _, _, _, x, hx => by simp at hx
  | y :: xs, p, q, hc, x, hx => by
    rcases List.mem_cons.mp hx with rfl | hx
    · exact ⟨p, hc.2.1⟩
    · exact chain_mem_prev h xs y q hc.2.2 x hx

/-- An element with a null `next` and `prev` cannot be anywhere in a
represented list (its sentinels included). -/
theorem rep_fresh (h : Heap) (L : list) (xs : List Nat) (u : Nat)
    (R : rep h L xs) (hun : (h u).next = none) (hup : (h u).prev = none) :
    u ≠ L.head ∧ u ≠ L.tail ∧ u ∉ xs := by
  refine ⟨?_, ?_, ?_⟩
  · rintro rfl
    rw [chain_next_eq h xs L.head L.tail R.ch] at hun; cases hun
  · rintro rfl
    rw [chain_prev_eq h xs L.head L.tail R.ch] at hup; cases hup
  · intro hu
    obtain ⟨n, hn⟩ := chain_mem_next h xs L.head L.tail R.ch u hu
    rw [hun] at hn; cases hn

/-- Rebuild a chain whose final junction has been redirected to a new
endpoint `z`: interior fields unchanged, new last-to-`z` links given. -/
theorem chain_retarget (h h' : Heap) (z : Nat) (xs : List Nat) (p q : Nat)
    (hc : chain h p xs q)
    (hnd : (p :: xs).Nodup)
    (hn : ∀ a ∈ p :: xs, a ≠ xs.getLastD p → (h' a).next = (h a).next)
    (hpr : ∀ a ∈ xs, (h' a).prev = (h a).prev)
    (hz1 : (h' (xs.getLastD p)).next = some z)
    (hz2 : (h' z).prev = some (xs.getLastD p)) :
    chain h' p xs z := by
  induction xs generalizing p with
  | nil => exact ⟨hz1, hz2⟩
  | cons x xs ih =>
    rw [List.getLastD_cons] at hn hz1 hz2
    have hpx : p ∉ x :: xs := (List.nodup_cons.mp hnd).1
    refine ⟨?_, ?_, ?_⟩
    · have hplast : p ≠ xs.getLastD x := by
        intro he
        exact hpx (he ▸ List.getLastD_mem_cons xs x)
      rw [hn p (by simp) hplast]
      exact hc.1
    · rw [hpr x (by simp)]
      exact hc.2.1
    · exact ih x hc.2.2 (List.nodup_cons.mp hnd).2
        (fun a ha => hn a (by simp at ha ⊢; tauto))
        (fun a ha => hpr a (by simp at ha ⊢; tauto))
        hz1 hz2

/-- Rebuild a chain whose initial junction has been redirected to a new
start `z`: interior fields unchanged, new `z`-to-first links given. -/
theorem chain_refront (h h' : Heap) (z : Nat) (xs : List Nat) (p q : Nat)
    (hc : chain h p xs q)
    (hnd : (q :: xs).Nodup)
    (hn : ∀ a ∈ xs, (h' a).next = (h a).next)
    (hpr : ∀ a ∈ xs ++ [q], a ≠ xs.headD q → (h' a).prev = (h a).prev)
    (hz1 : (h' z).next = some (xs.headD q))
    (hz2 : (h' (xs.headD q)).prev = some z) :
    chain h' z xs q := by
  cases xs with
  | nil => exact ⟨hz1, hz2⟩
  | cons x xs =>
    simp only [List.headD_cons] at hz1 hz2
    refine ⟨hz1, hz2, ?_⟩
    have hqx : q ∉ x :: xs := (List.nodup_cons.mp hnd).1
    have hxxs : x ∉ xs := (List.nodup_cons.mp (List.nodup_cons.mp hnd).2).1
    exact chain_frame h h' xs x q hc.2.2
      (fun a ha => hn a (by simp at ha ⊢; tauto))
      (fun a ha => by
        refine hpr a (by simp at ha ⊢; tauto) ?_
        simp only [List.headD_cons]
        rintro rfl
        simp at ha
        rcases ha with ha | ha
        · exact hxxs ha
        · exact hqx (by simp [ha]))

/-! ### Traversal lemmas -/

theorem chain_trav (h : Heap) (xs : List Nat) (p q : Nat)
    (hc : chain h p xs q) (hq : q ∉ xs) :
    trav h xs.length (xs.headD q) q = some xs := by
  induction xs generalizing p with
  | nil => simp [trav]
  | cons x xs ih =>
    have hxq : x ≠ q := by rintro rfl; exact hq (by simp)
    have hstep : (h x).next = some (xs.headD q) := chain_next_eq h xs x q hc.2.2
    simp only [List.headD_cons, List.length_cons, trav, if_neg hxq, hstep]
    rw [ih x hc.2.2 (fun hx => hq (by simp [hx]))]
    rfl

theorem rep_travList (h : Heap) (L : list) (xs : List Nat) (R : rep h L xs) :
    travList h L xs.length = some xs := by
  have h1 : (h L.head).next = some (xs.headD L.tail) := chain_next_eq h xs _ _ R.ch
  have hq : L.tail ∉ xs := by
    have := R.nd
    simp only [List.nodup_cons] at this
    exact this.2.1
  unfold travList
  rw [h1]
  exact chain_trav h xs L.head L.tail R.ch hq

theorem chain_travB (h : Heap) (xs : List Nat) (p q : Nat)
    (hc : chain h p xs q) (hp : p ∉ xs) :
    travB h xs.length (xs.getLastD p) p = some xs.reverse := by
  induction xs using List.reverseRecOn generalizing q with
  | nil => simp [travB]
  | append_singleton xs y ih =>
    have hyp : y ≠ p := by rintro rfl; exact hp (by simp)
    have hsplit := (chain_append h y q [] xs p).mp (by simpa using hc)
    have hprev : (h y).prev = some (xs.getLastD p) := chain_prev_eq h xs p y hsplit.1
    have hlast : (xs ++ [y]).getLastD p = y := by simp
    rw [hlast]
    have hlen : (xs ++ [y]).length = xs.length + 1 := by simp
    rw [hlen]
    simp only [travB, if_neg hyp, hprev]
    rw [ih y hsplit.1 (fun hx => hp (by simp [hx]))]
    simp

theorem rep_travListB (h : Heap) (L : list) (xs : List Nat) (R : rep h L xs) :
    travListB h L xs.length = some xs.reverse := by
  have h1 : (h L.tail).prev = some (xs.getLastD L.head) := chain_prev_eq h xs _ _ R.ch
  have hp : L.head ∉ xs := by
    have := R.nd
    simp only [List.nodup_cons] at this
    intro hx
    exact this.1 (by simp [hx])
  unfold travListB
  rw [h1]
  exact chain_travB h xs L.head L.tail R.ch hp

/-! ### Field-level read lemmas for the two writers -/

theorem setNext_prev (h : Heap) (a : Nat) (n : Option Nat) (b : Nat) :
    (setNext h a n b).prev = (h b).prev := by
  by_cases hb : b = a <;> simp [setNext, hset, hb]

theorem setPrev_next (h : Heap) (a : Nat) (p : Option Nat) (b : Nat) :
    (setPrev h a p b).next = (h b).next := by
  by_cases hb : b = a <;> simp [setPrev, hset, hb]

theorem setNext_next_self (h : Heap) (a : Nat) (n : Option Nat) :
    (setNext h a n a).next = n := by
  simp [setNext, hset]

theorem setNext_next_ne (h : Heap) (a : Nat) (n : Option Nat) (b : Nat) (hb : b ≠ a) :
    (setNext h a n b).next = (h b).next := by
  simp [setNext, hset, hb]

theorem setPrev_prev_self (h : Heap) (a : Nat) (p : Option Nat) :
    (setPrev h a p a).prev = p := by
  simp [setPrev, hset]

theorem setPrev_prev_ne (h : Heap) (a : Nat) (p : Option Nat) (b : Nat) (hb : b ≠ a) :
    (setPrev h a p b).prev = (h b).prev := by
  simp [setPrev, hset, hb]

/-! ### `unlink` characterisation -/

/-- `unlink` on an already-unlinked link is the identity on the heap. -/
theorem unlink_unlinked (h : Heap) (x : Nat)
    (hn : (h x).next = none) (hp : (h x).prev = none) :
    unlink h x = h := by
  unfold unlink
  rw [hn, hp]
  simp only [hn, hp]
  funext b
  by_cases hb : b = x
  · subst hb
    rw [hset_self]
    cases he : h b
    simp_all
  · exact hset_ne _ _ _ _ hb

/-- `unlink` on a link with both neighbours present is exactly: rewire
the two neighbours, then null out the victim's record. -/
theorem unlink_eq (h : Heap) (x n p : Nat)
    (hn : (h x).next = some n) (hp : (h x).prev = some p) :
    unlink h x = hset (setNext (setPrev h n (some p)) p (some n)) x ⟨none, none⟩ := by
  have h1p : (setPrev h n (some p) x).prev = some p := by
    by_cases hxn : x = n
    · subst hxn; rw [setPrev_prev_self]
    · rw [setPrev_prev_ne h n (some p) x hxn]; exact hp
  have h1n : (setPrev h n (some p) x).next = some n := by
    rw [setPrev_next]; exact hn
  unfold unlink
  rw [hn, hp]
  simp only [h1p, h1n]

theorem unlink_at (h : Heap) (x n p : Nat)
    (hn : (h x).next = some n) (hp : (h x).prev = some p) :
    (unlink h x) x = ⟨none, none⟩ := by
  rw [unlink_eq h x n p hn hp, hset_self]

theorem unlink_next_p (h : Heap) (x n p : Nat)
    (hn : (h x).next = some n) (hp : (h x).prev = some p) (hpx : p ≠ x) :
    ((unlink h x) p).next = some n := by
  rw [unlink_eq h x n p hn hp, hset_ne _ _ _ _ hpx, setNext_next_self]

theorem unlink_prev_n (h : Heap) (x n p : Nat)
    (hn : (h x).next = some n) (hp : (h x).prev = some p) (hnx : n ≠ x) :
    ((unlink h x) n).prev = some p := by
  rw [unlink_eq h x n p hn hp, hset_ne _ _ _ _ hnx, setNext_prev, setPrev_prev_self]

theorem unlink_next_other (h : Heap) (x n p : Nat)
    (hn : (h x).next = some n) (hp : (h x).prev = some p)
    (a : Nat) (hax : a ≠ x) (hap : a ≠ p) :
    ((unlink h x) a).next = (h a).next := by
  rw [unlink_eq h x n p hn hp, hset_ne _ _ _ _ hax, setNext_next_ne _ _ _ _ hap,
    setPrev_next]

theorem unlink_prev_other (h : Heap) (x n p : Nat)
    (hn : (h x).next = some n) (hp : (h x).prev = some p)
    (a : Nat) (hax : a ≠ x) (han : a ≠ n) :
    ((unlink h x) a).prev = (h a).prev := by
  rw [unlink_eq h x n p hn hp, hset_ne _ _ _ _ hax, setNext_prev,
    setPrev_prev_ne _ _ _ _ han]

/-! ### Nodup bookkeeping helpers -/

theorem nodup_snoc (a b u : Nat) (xs : List Nat)
    (hnd : (a :: b :: xs).Nodup) (hu : u ∉ a :: b :: xs) :
    (a :: b :: (xs ++ [u])).Nodup := by
  have he : a :: b :: (xs ++ [u]) = (a :: b :: xs) ++ [u] := by simp
  rw [he, List.nodup_append]
  refine ⟨hnd, List.nodup_singleton u, ?_⟩
  intro x hx hxu
  rw [List.mem_singleton] at hxu
  subst hxu
  exact hu hx

theorem nodup_cons_mid (a b u : Nat) (xs : List Nat)
    (hnd : (a :: b :: xs).Nodup) (hu : u ∉ a :: b :: xs) :
    (a :: b :: u :: xs).Nodup := by
  simp only [List.nodup_cons, List.mem_cons] at *
  push_neg at hu hnd ⊢
  tauto

theorem nodup_head_xs (a b : Nat) (xs : List Nat) (hnd : (a :: b :: xs).Nodup) :
    (a :: xs).Nodup := by
  simp only [List.nodup_cons, List.mem_cons] at *
  push_neg at hnd
  exact ⟨hnd.1.2, hnd.2.2⟩

theorem nodup_tail_xs (a b : Nat) (xs : List Nat) (hnd : (a :: b :: xs).Nodup) :
    (b :: xs).Nodup := by
  simp only [List.nodup_cons] at *
  exact hnd.2

/-! ### `clear` -/

theorem rep_clear (h : Heap) (L : list) (xs : List Nat) (R : rep h L xs) :
    rep (clear h L) L [] ∧ ∀ a, a ≠ L.head → a ≠ L.tail → clear h L a = h a := by
  have hht : L.head ≠ L.tail := by
    have := R.nd
    simp only [List.nodup_cons, List.mem_cons] at this
    push_neg at this
    exact this.1.1
  constructor
  · refine ⟨⟨?_, ?_⟩, ?_, ?_, ?_⟩
    · rw [clear, setPrev_next, setNext_next_self]
    · rw [clear, setPrev_prev_self]
    · simp [hht]
    · rw [clear, setPrev_prev_ne _ _ _ _ hht, setNext_prev]
      exact R.hp
    · rw [clear, setPrev_next, setNext_next_ne _ _ _ _ (Ne.symm hht)]
      exact R.tn
  · intro a ha hat
    rw [clear, setPrev_ne _ _ _ _ hat, setNext_ne _ _ _ _ ha]

/-! ### `push_back` / `push_front` -/

theorem rep_push_back (h : Heap) (L : list) (xs : List Nat) (u : Nat)
    (R : rep h L xs) (hun : (h u).next = none) (hup : (h u).prev = none) :
    ∃ h', push_back h L u = some h' ∧ rep h' L (xs ++ [u]) := by
  obtain ⟨hu1, hu2, hu3⟩ := rep_fresh h L xs u R hun hup
  set lastN := xs.getLastD L.head with hlastN
  have hmem : lastN ∈ L.head :: xs := List.getLastD_mem_cons xs L.head
  have hht : L.head ≠ L.tail ∧ L.tail ∉ xs ∧ L.head ∉ xs := by
    have := R.nd
    simp only [List.nodup_cons, List.mem_cons] at this
    push_neg at this
    exact ⟨this.1.1, this.2.1, this.1.2⟩
  have hlt : lastN ≠ L.tail := by
    rcases List.mem_cons.mp hmem with he | he
    · rw [he]; exact hht.1
    · intro hc; exact hht.2.1 (hc ▸ he)
  have hlu : lastN ≠ u := by
    rcases List.mem_cons.mp hmem with he | he
    · rw [he]; exact fun hc => hu1 hc.symm
    · intro hc; exact hu3 (hc ▸ he)
  have htp : (h L.tail).prev = some lastN := chain_prev_eq h xs _ _ R.ch
  have e1 : (setNext h lastN (some u) L.tail).prev = some lastN := by
    rw [setNext_prev]; exact htp
  set h1 := setNext h lastN (some u) with hh1
  set h2 := setPrev h1 u (some lastN) with hh2
  set h3 := setNext h2 u (some L.tail) with hh3
  set hF := setPrev h3 L.tail (some u) with hhF
  have hrun : push_back h L u = some hF := by
    unfold push_back
    rw [htp]
    simp only [← hh1, e1, ← hh2, ← hh3, ← hhF]
  refine ⟨hF, hrun, ?_, ?_, ?_, ?_⟩
  · -- chain hF L.head (xs ++ [u]) L.tail
    rw [show xs ++ [u] = xs ++ u :: [] from rfl, chain_append]
    constructor
    · -- chain hF L.head xs u
      refine chain_retarget h hF u xs L.head L.tail R.ch
        (nodup_head_xs _ _ _ R.nd) ?_ ?_ ?_ ?_
      · intro a ha hal
        have hau : a ≠ u := by
          rcases List.mem_cons.mp ha with he | he
          · rw [he]; exact Ne.symm hu1
          · intro hc; exact hu3 (hc ▸ he)
        rw [hhF, setPrev_next, hh3, setNext_next_ne _ _ _ _ hau, hh2, setPrev_next,
          hh1, setNext_next_ne _ _ _ _ hal]
      · intro a ha
        have hau : a ≠ u := fun hc => hu3 (hc ▸ ha)
        have hat : a ≠ L.tail := fun hc => hht.2.1 (hc ▸ ha)
        rw [hhF, setPrev_prev_ne _ _ _ _ hat, hh3, setNext_prev, hh2,
          setPrev_prev_ne _ _ _ _ hau, hh1, setNext_prev]
      · rw [← hlastN, hhF, setPrev_next, hh3, setNext_next_ne _ _ _ _ hlu, hh2,
          setPrev_next, hh1, setNext_next_self]
      · rw [← hlastN, hhF, setPrev_prev_ne _ _ _ _ hu2, hh3, setNext_prev,
          hh2, setPrev_prev_self]
    · -- chain hF u [] L.tail
      refine ⟨?_, ?_⟩
      · rw [hhF, setPrev_next, hh3, setNext_next_self]
      · rw [hhF, setPrev_prev_self]
  · exact nodup_snoc _ _ _ _ R.nd (by simp [not_or]; exact ⟨hu1, hu2, hu3⟩)
  · have hhu : L.head ≠ u := Ne.symm hu1
    have hhl : L.head ≠ L.tail := hht.1
    rw [hhF, setPrev_prev_ne _ _ _ _ hhl, hh3, setNext_prev, hh2,
      setPrev_prev_ne _ _ _ _ hhu, hh1, setNext_prev]
    exact R.hp
  · have htu : L.tail ≠ u := Ne.symm hu2
    rw [hhF, setPrev_next, hh3, setNext_next_ne _ _ _ _ htu, hh2, setPrev_next,
      hh1, setNext_next_ne _ _ _ _ (Ne.symm hlt)]
    exact R.tn

theorem rep_push_front (h : Heap) (L : list) (xs : List Nat) (u : Nat)
    (R : rep h L xs) (hun : (h u).next = none) (hup : (h u).prev = none) :
    ∃ h', push_front h L u = some h' ∧ rep h' L (u :: xs) := by
  obtain ⟨hu1, hu2, hu3⟩ := rep_fresh h L xs u R hun hup
  set firstN := xs.headD L.tail with hfirstN
  have hmem : firstN ∈ L.tail :: xs := by
    cases xs with
    | nil => simp [hfirstN]
    | cons x xs => simp [hfirstN]
  have hht : L.head ≠ L.tail ∧ L.tail ∉ xs ∧ L.head ∉ xs := by
    have := R.nd
    simp only [List.nodup_cons, List.mem_cons] at this
    push_neg at this
    exact ⟨this.1.1, this.2.1, this.1.2⟩
  have hfh : firstN ≠ L.head := by
    rcases List.mem_cons.mp hmem with he | he
    · rw [he]; exact Ne.symm hht.1
    · intro hc; exact hht.2.2 (hc ▸ he)
  have hfu : firstN ≠ u := by
    rcases List.mem_cons.mp hmem with he | he
    · rw [he]; exact fun hc => hu2 hc.symm
    · intro hc; exact hu3 (hc ▸ he)
  have hhn : (h L.head).next = some firstN := chain_next_eq h xs _ _ R.ch
  have e1 : (setPrev h firstN (some u) L.head).next = some firstN := by
    rw [setPrev_next]; exact hhn
  set h1 := setPrev h firstN (some u) with hh1
  set h2 := setNext h1 u (some firstN) with hh2
  set h3 := setPrev h2 u (some L.head) with hh3
  set hF := setNext h3 L.head (some u) with hhF
  have hrun : push_front h L u = some hF := by
    unfold push_front
    rw [hhn]
    simp only [← hh1, e1, ← hh2, ← hh3, ← hhF]
  refine ⟨hF, hrun, ?_, ?_, ?_, ?_⟩
  · -- chain hF L.head (u :: xs) L.tail
    refine ⟨?_, ?_, ?_⟩
    · rw [hhF, setNext_next_self]
    · rw [hhF, setNext_prev, hh3, setPrev_prev_self]
    · -- chain hF u xs L.tail
      refine chain_refront h hF u xs L.head L.tail R.ch
        (nodup_tail_xs _ _ _ R.nd) ?_ ?_ ?_ ?_
      · intro a ha
        have hau : a ≠ u := fun hc => hu3 (hc ▸ ha)
        have hah : a ≠ L.head := fun hc => hht.2.2 (hc ▸ ha)
        rw [hhF, setNext_next_ne _ _ _ _ hah, hh3, setPrev_next, hh2,
          setNext_next_ne _ _ _ _ hau, hh1, setPrev_next]
      · intro a ha haf
        have hau : a ≠ u := by
          simp only [List.mem_append, List.mem_singleton] at ha
          rcases ha with ha | ha
          · exact fun hc => hu3 (hc ▸ ha)
          · rw [ha]; exact Ne.symm hu2
        have hah : a ≠ L.head := by
          simp only [List.mem_append, List.mem_singleton] at ha
          rcases ha with ha | ha
          · exact fun hc => hht.2.2 (hc ▸ ha)
          · rw [ha]; exact Ne.symm hht.1
        rw [hhF, setNext_prev, hh3, setPrev_prev_ne _ _ _ _ hau, hh2, setNext_prev,
          hh1, setPrev_prev_ne _ _ _ _ haf]
      · rw [← hfirstN, hhF, setNext_next_ne _ _ _ _ hu1, hh3, setPrev_next,
          hh2, setNext_next_self]
      · rw [← hfirstN, hhF, setNext_prev, hh3,
          setPrev_prev_ne _ _ _ _ hfu, hh2, setNext_prev, hh1, setPrev_prev_self]
  · exact nodup_cons_mid _ _ _ _ R.nd (by simp [not_or]; exact ⟨hu1, hu2, hu3⟩)
  · rw [hhF, setNext_prev, hh3, setPrev_prev_ne _ _ _ _ (Ne.symm hu1), hh2,
      setNext_prev, hh1, setPrev_prev_ne _ _ _ _ (Ne.symm hfh)]
    exact R.hp
  · rw [hhF, setNext_next_ne _ _ _ _ (Ne.symm hht.1), hh3, setPrev_next, hh2,
      setNext_next_ne _ _ _ _ (Ne.symm hu2), hh1, setPrev_next]
    exact R.tn

/-! ### Facts connecting `empty()` and the representation -/

theorem rep_empty_iff (h : Heap) (L : list) (xs : List Nat) (R : rep h L xs) :
    (emptyb h L = true ↔ xs = []) := by
  constructor
  · intro he
    cases xs with
    | nil => rfl
    | cons x xs =>
      exfalso
      rw [emptyb, decide_eq_true_iff] at he
      have := chain_next_eq h (x :: xs) L.head L.tail R.ch
      rw [he] at this
      simp only [List.headD_cons, Option.some.injEq] at this
      have hnd := R.nd
      simp only [List.nodup_cons, List.mem_cons] at hnd
      exact hnd.2.1 (by simp [← this])
  · rintro rfl
    rw [emptyb, decide_eq_true_iff]
    exact R.ch.1

/-! ### `unlink` of a linked element preserves the representation -/


theorem rep_unlink_mid (h : Heap) (L : list) (l : List Nat) (x : Nat) (r : List Nat)
    (R : rep h L (l ++ x :: r)) :
    rep (unlink h x) L (l ++ r) ∧ (unlink h x) x = ⟨none, none⟩ ∧
      (h x).next = some (r.headD L.tail) := by
  have hsplit := (chain_append h x L.tail r l L.head).mp R.ch
  set a := l.getLastD L.head with ha
  set b := r.headD L.tail with hb
  have hxp : (h x).prev = some a := chain_prev_eq h l L.head x hsplit.1
  have hxn : (h x).next = some b := chain_next_eq h r x L.tail hsplit.2
  have hnd := R.nd
  have hmemx : x ∈ l ++ x :: r := by simp
  have hht : L.head ≠ L.tail := by
    simp only [List.nodup_cons, List.mem_cons] at hnd
    push_neg at hnd
    exact hnd.1.1
  have hhx : L.head ≠ x := by
    simp only [List.nodup_cons, List.mem_cons] at hnd
    push_neg at hnd
    exact fun hc => hnd.1.2 (hc ▸ hmemx)
  have htx : L.tail ≠ x := by
    simp only [List.nodup_cons, List.mem_cons] at hnd
    exact fun hc => hnd.2.1 (hc ▸ hmemx)
  have hndlxr : (l ++ x :: r).Nodup :=
    hnd.sublist ((List.sublist_cons_self L.tail _).trans (List.sublist_cons_self L.head _))
  have hdisj := List.disjoint_of_nodup_append hndlxr
  have hxnl : x ∉ l := fun hc => hdisj hc (by simp)
  have hxnr : x ∉ r := by
    have := (List.nodup_append.mp hndlxr).2.1
    simp only [List.nodup_cons] at this
    exact this.1
  have hhead_nlr : L.head ∉ l ∧ L.head ∉ r := by
    simp only [List.nodup_cons, List.mem_cons, List.mem_append] at hnd
    push_neg at hnd
    have h1 := hnd.1.2
    exact ⟨h1.1, h1.2.2⟩
  have htail_nlr : L.tail ∉ l ∧ L.tail ∉ r := by
    simp only [List.nodup_cons, List.mem_cons, List.mem_append] at hnd
    have h1 := hnd.2.1
    push_neg at h1
    exact ⟨h1.1, h1.2.2⟩
  have hma : a ∈ L.head :: l := List.getLastD_mem_cons l L.head
  have hmb : b ∈ L.tail :: r := by
    cases r with
    | nil => simp [hb]
    | cons y ys => simp [hb]
  have hax : a ≠ x := by
    rcases List.mem_cons.mp hma with he | he
    · rw [he]; exact hhx
    · exact fun hc => hxnl (hc ▸ he)
  have hbx : b ≠ x := by
    rcases List.mem_cons.mp hmb with he | he
    · rw [he]; exact htx
    · exact fun hc => hxnr (hc ▸ he)
  have hhb : L.head ≠ b := by
    rcases List.mem_cons.mp hmb with he | he
    · rw [he]; exact hht
    · exact fun hc => hhead_nlr.2 (hc ▸ he)
  have hta : L.tail ≠ a := by
    rcases List.mem_cons.mp hma with he | he
    · rw [he]; exact Ne.symm hht
    · exact fun hc => htail_nlr.1 (hc ▸ he)
  have hlr : ∀ c ∈ l, c ∉ r := fun c hc hcr => hdisj hc (by simp [hcr])
  have hbnl : ∀ c ∈ l, c ≠ b := by
    intro c hc
    rcases List.mem_cons.mp hmb with he | he
    · rw [he]; exact fun hcc => htail_nlr.1 (hcc ▸ hc)
    · exact fun hcc => hlr c hc (hcc ▸ he)
  have hanr : ∀ c ∈ r, c ≠ a := by
    intro c hc
    rcases List.mem_cons.mp hma with he | he
    · rw [he]; exact fun hcc => hhead_nlr.2 (hcc ▸ hc)
    · exact fun hcc => hlr _ he (hcc ▸ hc)
  have hndhl : (L.head :: l).Nodup :=
    hnd.sublist (List.Sublist.cons₂ _ ((List.sublist_append_left l (x :: r)).cons _))
  -- the rebuilt prefix chain, ending at the new junction b
  have hpre : chain (unlink h x) L.head l b := by
    refine chain_retarget h (unlink h x) b l L.head x hsplit.1 hndhl ?_ ?_ ?_ ?_
    · intro c hc hcl
      refine unlink_next_other h x b a hxn hxp c ?_ (by rwa [← ha] at hcl)
      rcases List.mem_cons.mp hc with he | he
      · rw [he]; exact hhx
      · exact fun hcc => hxnl (hcc ▸ he)
    · intro c hc
      exact unlink_prev_other h x b a hxn hxp c
        (fun hcc => hxnl (hcc ▸ hc)) (hbnl c hc)
    · rw [← ha]; exact unlink_next_p h x b a hxn hxp hax
    · rw [← ha]; exact unlink_prev_n h x b a hxn hxp hbx
  refine ⟨⟨?_, ?_, ?_, ?_⟩, unlink_at h x b a hxn hxp, hxn⟩
  · -- chain (unlink h x) L.head (l ++ r) L.tail
    cases r with
    | nil =>
      simp only [List.append_nil]
      have hbt : b = L.tail := by rw [hb]; rfl
      rw [hbt] at hpre
      exact hpre
    | cons y ys =>
      have hby : b = y := by rw [hb]; rfl
      rw [chain_append]
      refine ⟨hby ▸ hpre, ?_⟩
      have hchain2 : chain h y ys L.tail := hsplit.2.2.2
      have hndr : (y :: ys).Nodup := by
        have := (List.nodup_append.mp hndlxr).2.1
        exact (List.nodup_cons.mp this).2
      have hyys : y ∉ ys := (List.nodup_cons.mp hndr).1
      refine chain_frame h (unlink h x) ys y L.tail hchain2 ?_ ?_
      · intro c hc
        exact unlink_next_other h x b a hxn hxp c
          (fun hcc => hxnr (hcc ▸ hc)) (hanr c hc)
      · intro c hc
        simp only [List.mem_append, List.mem_singleton] at hc
        have hcx : c ≠ x := by
          rcases hc with hc | hc
          · exact fun hcc => hxnr (hcc ▸ (show c ∈ y :: ys from by simp [hc]))
          · rw [hc]; exact htx
        have hcb : c ≠ b := by
          rw [hby]
          rcases hc with hc | hc
          · exact fun hcc => hyys (hcc ▸ hc)
          · rw [hc]
            intro hcc
            exact htail_nlr.2 (by rw [hcc]; simp)
        exact unlink_prev_other h x b a hxn hxp c hcx hcb
  · -- nodup
    have hsub : List.Sublist (L.head :: L.tail :: (l ++ r))
        (L.head :: L.tail :: (l ++ x :: r)) :=
      List.Sublist.cons₂ _ (List.Sublist.cons₂ _
        (List.Sublist.append_left (List.sublist_cons_self x r) l))
    exact hnd.sublist hsub
  · rw [unlink_prev_other h x b a hxn hxp L.head hhx hhb]
    exact R.hp
  · rw [unlink_next_other h x b a hxn hxp L.tail htx hta]
    exact R.tn

theorem rep_not_empty (h : Heap) (L : list) (xs : List Nat)
    (R : rep h L xs) (hne : xs ≠ []) : emptyb h L = false := by
  have := rep_empty_iff h L xs R
  rcases hb : emptyb h L with _ | _
  · rfl
  · exact absurd (this.mp hb) hne

theorem rep_pop_back (h : Heap) (L : list) (ys : List Nat) (y : Nat)
    (R : rep h L (ys ++ [y])) :
    pop_back h L = some (unlink h y) ∧ rep (unlink h y) L ys ∧
      (unlink h y) y = ⟨none, none⟩ := by
  have hre := rep_unlink_mid h L ys y [] (by simpa using R)
  have hemp : emptyb h L = false := rep_not_empty h L (ys ++ [y]) R (by simp)
  have htp : (h L.tail).prev = some y := by
    have := chain_prev_eq h (ys ++ [y]) L.head L.tail R.ch
    simpa using this
  refine ⟨?_, by simpa using hre.1, hre.2.1⟩
  unfold pop_back
  rw [hemp, htp]
  simp

theorem rep_pop_front (h : Heap) (L : list) (y : Nat) (ys : List Nat)
    (R : rep h L (y :: ys)) :
    pop_front h L = some (unlink h y) ∧ rep (unlink h y) L ys ∧
      (unlink h y) y = ⟨none, none⟩ := by
  have hre := rep_unlink_mid h L [] y ys (by simpa using R)
  have hemp : emptyb h L = false := rep_not_empty h L (y :: ys) R (by simp)
  have hhn : (h L.head).next = some y := by
    have := chain_next_eq h (y :: ys) L.head L.tail R.ch
    simpa using this
  refine ⟨?_, by simpa using hre.1, hre.2.1⟩
  unfold pop_front
  rw [hemp, hhn]
  simp

theorem rep_erase (h : Heap) (L : list) (l : List Nat) (x : Nat) (r : List Nat)
    (R : rep h L (l ++ x :: r)) :
    erase h L (some x) = some (unlink h x, some (r.headD L.tail)) ∧
      rep (unlink h x) L (l ++ r) ∧ (unlink h x) x = ⟨none, none⟩ := by
  have hre := rep_unlink_mid h L l x r R
  have hmemx : x ∈ l ++ x :: r := by simp
  have hnd := R.nd
  have hxt : x ≠ L.tail := by
    simp only [List.nodup_cons, List.mem_cons] at hnd
    exact fun hc => hnd.2.1 (by rw [← hc]; exact hmemx)
  have hxh : x ≠ L.head := by
    simp only [List.nodup_cons, List.mem_cons] at hnd
    push_neg at hnd
    exact fun hc => hnd.1.2 (by rw [← hc]; exact hmemx)
  refine ⟨?_, hre.1, hre.2.1⟩
  unfold erase
  rw [if_neg (by simp [hxt, hxh])]
  show some (unlink h x, (h x).next) = _
  rw [hre.2.2]

/-! ### Simulation of operation sequences against deque semantics -/

theorem run_sim (L : list) (ops : List Op) :
    ∀ (h : Heap) (xs : List Nat), rep h L xs → runOKb h L ops = true →
    ∃ h', runOps h L ops = some h' ∧ rep h' L (dq xs ops) := by
  induction ops with
  | nil =>
    intro h xs R _
    exact ⟨h, rfl, R⟩
  | cons op rest ih =>
    intro h xs R hok
    rw [runOKb, Bool.and_eq_true] at hok
    cases op with
    | push_back u =>
      have hu := hok.1
      rw [stepOKb, Bool.and_eq_true, Option.isNone_iff_eq_none,
        Option.isNone_iff_eq_none] at hu
      obtain ⟨h1, hs, R1⟩ := rep_push_back h L xs u R hu.1 hu.2
      have hstep : step h L (Op.push_back u) = some h1 := hs
      have hok2 : runOKb h1 L rest = true := by
        have := hok.2
        rw [hstep] at this
        exact this
      obtain ⟨h2, hrun, R2⟩ := ih h1 (xs ++ [u]) R1 hok2
      exact ⟨h2, by rw [runOps, hstep]; exact hrun, R2⟩
    | push_front u =>
      have hu := hok.1
      rw [stepOKb, Bool.and_eq_true, Option.isNone_iff_eq_none,
        Option.isNone_iff_eq_none] at hu
      obtain ⟨h1, hs, R1⟩ := rep_push_front h L xs u R hu.1 hu.2
      have hstep : step h L (Op.push_front u) = some h1 := hs
      have hok2 : runOKb h1 L rest = true := by
        have := hok.2
        rw [hstep] at this
        exact this
      obtain ⟨h2, hrun, R2⟩ := ih h1 (u :: xs) R1 hok2
      exact ⟨h2, by rw [runOps, hstep]; exact hrun, R2⟩
    | pop_back =>
      have hne : xs ≠ [] := by
        intro he
        subst he
        have : emptyb h L = true := (rep_empty_iff h L [] R).mpr rfl
        have h1 := hok.1
        rw [stepOKb, this] at h1
        simp at h1
      obtain ⟨ys, y, he⟩ : ∃ ys y, xs = ys ++ [y] := by
        rcases List.eq_nil_or_concat xs with he | ⟨ys, y, he⟩
        · exact absurd he hne
        · exact ⟨ys, y, by rw [he, List.concat_eq_append]⟩
      subst he
      obtain ⟨hs, R1, _⟩ := rep_pop_back h L ys y R
      have hstep : step h L Op.pop_back = some (unlink h y) := hs
      have hok2 : runOKb (unlink h y) L rest = true := by
        have := hok.2
        rw [hstep] at this
        exact this
      obtain ⟨h2, hrun, R2⟩ := ih (unlink h y) ys R1 hok2
      refine ⟨h2, by rw [runOps, hstep]; exact hrun, ?_⟩
      have hdrop : (ys ++ [y]).dropLast = ys := by simp
      rw [dq, hdrop]
      exact R2
    | pop_front =>
      have hne : xs ≠ [] := by
        intro he
        subst he
        have : emptyb h L = true := (rep_empty_iff h L [] R).mpr rfl
        have h1 := hok.1
        rw [stepOKb, this] at h1
        simp at h1
      obtain ⟨y, ys, he⟩ : ∃ y ys, xs = y :: ys := by
        cases xs with
        | nil => exact absurd rfl hne
        | cons y ys => exact ⟨y, ys, rfl⟩
      subst he
      obtain ⟨hs, R1, _⟩ := rep_pop_front h L y ys R
      have hstep : step h L Op.pop_front = some (unlink h y) := hs
      have hok2 : runOKb (unlink h y) L rest = true := by
        have := hok.2
        rw [hstep] at this
        exact this
      obtain ⟨h2, hrun, R2⟩ := ih (unlink h y) ys R1 hok2
      exact ⟨h2, by rw [runOps, hstep]; exact hrun, R2⟩

/-- Rebuild a chain both of whose end junctions have been rewired to new
sentinels `p'`, `q'`; the interior fields are unchanged. -/
theorem chain_rehome (h h' : Heap) (p q p' q' x : Nat) (rest : List Nat)
    (hc : chain h p (x :: rest) q)
    (hnd : (x :: rest).Nodup)
    (hn : ∀ a ∈ x :: rest, a ≠ (x :: rest).getLastD p → (h' a).next = (h a).next)
    (hpr : ∀ a ∈ rest, (h' a).prev = (h a).prev)
    (hj1 : (h' p').next = some x)
    (hj2 : (h' x).prev = some p')
    (hj3 : (h' ((x :: rest).getLastD p)).next = some q')
    (hj4 : (h' q').prev = some ((x :: rest).getLastD p)) :
    chain h' p' (x :: rest) q' := by
  rw [List.getLastD_cons] at hn hj3 hj4
  refine ⟨hj1, hj2, ?_⟩
  exact chain_retarget h h' q' rest x q hc.2.2 hnd
    (fun a ha hal => hn a ha hal) hpr hj3 hj4

/-- Pointwise identity writes: writing back the value already present
does not change the heap. -/
theorem setPrev_id (h : Heap) (a : Nat) (p : Option Nat) (hp : (h a).prev = p) :
    setPrev h a p = h := by
  funext b
  by_cases hb : b = a
  · subst hb
    rw [setPrev_self, ← hp]
  · exact setPrev_ne _ _ _ _ hb

theorem setNext_id (h : Heap) (a : Nat) (n : Option Nat) (hn : (h a).next = n) :
    setNext h a n = h := by
  funext b
  by_cases hb : b = a
  · subst hb
    rw [setNext_self, ← hn]
  · exact setNext_ne _ _ _ _ hb

/-! ### `operator=(list&&)` -/

/-- Moving from an empty source is exactly `clear()` on the destination. -/
theorem opAssign_empty_src (h : Heap) (dst src : list) (he : emptyb h src = true) :
    opAssign h dst src = some (clear h dst) := by
  unfold opAssign
  rw [he]
  simp

/-- Move-assignment from a non-empty source `A` into a (disjoint)
destination `B`: six boundary writes transfer the whole chain. -/
theorem opAssign_move (h : Heap) (A B : list) (x : Nat) (rest : List Nat)
    (RA : rep h A (x :: rest))
    (hBht : B.head ≠ B.tail)
    (hBhp : (h B.head).prev = none) (hBtn : (h B.tail).next = none)
    (hdisj : ∀ c ∈ A.head :: A.tail :: x :: rest, ∀ d ∈ [B.head, B.tail], c ≠ d) :
    ∃ h', opAssign h B A = some h' ∧ rep h' B (x :: rest) ∧ rep h' A [] ∧
      (∀ c, c ≠ x → c ≠ rest.getLastD x → c ≠ A.head → c ≠ A.tail →
        c ≠ B.head → c ≠ B.tail → h' c = h c) := by
  set lastN := rest.getLastD x with hlastN
  have hndA := RA.nd
  have hAht : A.head ≠ A.tail := by
    simp only [List.nodup_cons, List.mem_cons] at hndA
    push_neg at hndA
    exact hndA.1.1
  have hAh_nas : A.head ∉ x :: rest := by
    simp only [List.nodup_cons, List.mem_cons] at hndA
    push_neg at hndA
    intro hc
    rcases List.mem_cons.mp hc with hc | hc
    · exact hndA.1.2.1 hc
    · exact hndA.1.2.2 hc
  have hAt_nas : A.tail ∉ x :: rest := by
    simp only [List.nodup_cons] at hndA
    exact fun hc => hndA.2.1 hc
  have hmx : x ∈ A.head :: A.tail :: x :: rest := by simp
  have hmlast : lastN ∈ x :: rest := List.getLastD_mem_cons rest x
  have hmlast4 : lastN ∈ A.head :: A.tail :: x :: rest := by simp [List.mem_cons.mp hmlast]
  have hmAh : A.head ∈ A.head :: A.tail :: x :: rest := by simp
  have hmAt : A.tail ∈ A.head :: A.tail :: x :: rest := by simp
  have hmBh : B.head ∈ [B.head, B.tail] := by simp
  have hmBt : B.tail ∈ [B.head, B.tail] := by simp
  have hxAt : x ≠ A.tail := fun hc => hAt_nas (by simp [← hc])
  have hxAh : x ≠ A.head := fun hc => hAh_nas (by simp [← hc])
  have hlaAt : lastN ≠ A.tail := fun hc => hAt_nas (hc ▸ hmlast)
  have hlaAh : lastN ≠ A.head := fun hc => hAh_nas (hc ▸ hmlast)
  have hhnA : (h A.head).next = some x := by
    have := chain_next_eq h (x :: rest) A.head A.tail RA.ch
    simpa using this
  have htpA : (h A.tail).prev = some lastN := by
    have := chain_prev_eq h (x :: rest) A.head A.tail RA.ch
    rw [List.getLastD_cons] at this
    exact this
  have hne : emptyb h A = false := rep_not_empty h A (x :: rest) RA (by simp)
  set h1 := setPrev h x (some B.head) with hh1
  have e2 : (h1 A.head).next = some x := by
    rw [hh1, setPrev_next]; exact hhnA
  set h2 := setNext h1 B.head (some x) with hh2
  have e3 : (h2 A.tail).prev = some lastN := by
    rw [hh2, setNext_prev, hh1, setPrev_prev_ne _ _ _ _ (Ne.symm hxAt)]
    exact htpA
  set h3 := setNext h2 lastN (some B.tail) with hh3
  have e4 : (h3 A.tail).prev = some lastN := by
    rw [hh3, setNext_prev]; exact e3
  set h4 := setPrev h3 B.tail (some lastN) with hh4
  set h5 := setNext h4 A.head (some A.tail) with hh5
  set hF := setPrev h5 A.tail (some A.head) with hhF
  have hrun : opAssign h B A = some hF := by
    unfold opAssign
    rw [hne]
    simp only [Bool.false_eq_true, if_false, hhnA]
    simp only [← hh1, e2, ← hh2, e3, ← hh3, e4, ← hh4, ← hh5, ← hhF]
  -- generic pointwise frame facts
  have frame_next : ∀ c, c ≠ A.head → c ≠ lastN → c ≠ B.head →
      (hF c).next = (h c).next := by
    intro c hc1 hc2 hc3
    rw [hhF, setPrev_next, hh5, setNext_next_ne _ _ _ _ hc1, hh4, setPrev_next,
      hh3, setNext_next_ne _ _ _ _ hc2, hh2, setNext_next_ne _ _ _ _ hc3,
      hh1, setPrev_next]
  have frame_prev : ∀ c, c ≠ A.tail → c ≠ B.tail → c ≠ x →
      (hF c).prev = (h c).prev := by
    intro c hc1 hc2 hc3
    rw [hhF, setPrev_prev_ne _ _ _ _ hc1, hh5, setNext_prev, hh4,
      setPrev_prev_ne _ _ _ _ hc2, hh3, setNext_prev, hh2, setNext_prev,
      hh1, setPrev_prev_ne _ _ _ _ hc3]
  refine ⟨hF, hrun, ⟨?_, ?_, ?_, ?_⟩, ⟨⟨?_, ?_⟩, ?_, ?_, ?_⟩, ?_⟩
  · -- chain hF B.head (x :: rest) B.tail
    refine chain_rehome h hF A.head A.tail B.head B.tail x rest RA.ch
      (nodup_tail_xs _ _ _ (nodup_tail_xs _ _ _ hndA)) ?_ ?_ ?_ ?_ ?_ ?_
    · intro a ha hal
      rw [List.getLastD_cons] at hal
      refine frame_next a ?_ (by rwa [← hlastN] at hal) ?_
      · intro hc; exact hAh_nas (hc ▸ ha)
      · intro hc
        exact hdisj a (by simp [List.mem_cons.mp ha, or_assoc]) B.head hmBh hc
    · intro a ha
      have ha3 : a ∈ x :: rest := by simp [ha]
      refine frame_prev a ?_ ?_ ?_
      · intro hc; exact hAt_nas (hc ▸ ha3)
      · intro hc
        exact hdisj a (by simp [List.mem_cons.mp ha3, or_assoc]) B.tail hmBt hc
      · intro hc
        have : (x :: rest).Nodup := nodup_tail_xs _ _ _ (nodup_tail_xs _ _ _ hndA)
        exact (List.nodup_cons.mp this).1 (hc ▸ ha)
    · -- (hF B.head).next = some x
      have hBhAt : B.head ≠ A.tail := Ne.symm (hdisj A.tail hmAt B.head hmBh)
      have hBhAh : B.head ≠ A.head := Ne.symm (hdisj A.head hmAh B.head hmBh)
      have hBhLa : B.head ≠ lastN := Ne.symm (hdisj lastN hmlast4 B.head hmBh)
      rw [hhF, setPrev_next, hh5, setNext_next_ne _ _ _ _ hBhAh, hh4, setPrev_next,
        hh3, setNext_next_ne _ _ _ _ hBhLa, hh2, setNext_next_self]
    · -- (hF x).prev = some B.head
      have hxBt : x ≠ B.tail := hdisj x hmx B.tail hmBt
      rw [hhF, setPrev_prev_ne _ _ _ _ hxAt, hh5, setNext_prev, hh4,
        setPrev_prev_ne _ _ _ _ hxBt, hh3, setNext_prev, hh2, setNext_prev,
        hh1, setPrev_prev_self]
    · -- (hF lastN).next = some B.tail
      rw [List.getLastD_cons, ← hlastN, hhF, setPrev_next, hh5,
        setNext_next_ne _ _ _ _ hlaAh, hh4, setPrev_next, hh3, setNext_next_self]
    · -- (hF B.tail).prev = some lastN
      have hBtAt : B.tail ≠ A.tail := Ne.symm (hdisj A.tail hmAt B.tail hmBt)
      rw [List.getLastD_cons, ← hlastN, hhF, setPrev_prev_ne _ _ _ _ hBtAt,
        hh5, setNext_prev, hh4, setPrev_prev_self]
  · -- nodup of B's new representation
    have hBh_nas : B.head ∉ x :: rest := by
      intro hc
      exact hdisj B.head (by simp [List.mem_cons.mp hc, or_assoc]) B.head hmBh rfl
    have hBt_nas : B.tail ∉ x :: rest := by
      intro hc
      exact hdisj B.tail (by simp [List.mem_cons.mp hc, or_assoc]) B.tail hmBt rfl
    have hndas : (x :: rest).Nodup := nodup_tail_xs _ _ _ (nodup_tail_xs _ _ _ hndA)
    rw [List.nodup_cons, List.nodup_cons]
    refine ⟨?_, hBt_nas, hndas⟩
    simp only [List.mem_cons]
    push_neg
    exact ⟨hBht, fun hc => hBh_nas (by simp [hc]), fun hc => hBh_nas (by simp [hc])⟩
  · -- B.head's outer pointer survives
    have hBhAt : B.head ≠ A.tail := Ne.symm (hdisj A.tail hmAt B.head hmBh)
    have hBhx : B.head ≠ x := Ne.symm (hdisj x hmx B.head hmBh)
    rw [frame_prev B.head hBhAt hBht hBhx]
    exact hBhp
  · -- B.tail's outer pointer survives
    have hBtAh : B.tail ≠ A.head := Ne.symm (hdisj A.head hmAh B.tail hmBt)
    have hBtLa : B.tail ≠ lastN := Ne.symm (hdisj lastN hmlast4 B.tail hmBt)
    have hBtBh : B.tail ≠ B.head := Ne.symm hBht
    rw [frame_next B.tail hBtAh hBtLa hBtBh]
    exact hBtn
  · -- (hF A.head).next = some A.tail
    rw [hhF, setPrev_next, hh5, setNext_next_self]
  · -- (hF A.tail).prev = some A.head
    rw [hhF, setPrev_prev_self]
  · simp [hAht]
  · -- (hF A.head).prev = none
    have hAhBt : A.head ≠ B.tail := hdisj A.head hmAh B.tail hmBt
    rw [frame_prev A.head hAht hAhBt (Ne.symm hxAh)]
    exact RA.hp
  · -- (hF A.tail).next = none
    have hAtBh : A.tail ≠ B.head := hdisj A.tail hmAt B.head hmBh
    rw [frame_next A.tail (Ne.symm hAht) (Ne.symm hlaAt) hAtBh]
    exact RA.tn
  · -- the frame
    intro c hc1 hc2 hc3 hc4 hc5 hc6
    rw [hhF, setPrev_ne _ _ _ _ hc4, hh5, setNext_ne _ _ _ _ hc3, hh4,
      setPrev_ne _ _ _ _ hc6, hh3, setNext_ne _ _ _ _ (hlastN ▸ hc2), hh2,
      setNext_ne _ _ _ _ hc5, hh1, setPrev_ne _ _ _ _ hc1]

/-- Self-move-assignment of a list collapses to `clear()`. -/
theorem opAssign_self (h : Heap) (L : list) (xs : List Nat) (R : rep h L xs) :
    opAssign h L L = some (clear h L) := by
  cases xs with
  | nil =>
    exact opAssign_empty_src h L L ((rep_empty_iff h L [] R).mpr rfl)
  | cons x rest =>
    have hne : emptyb h L = false := rep_not_empty h L (x :: rest) R (by simp)
    have hhnA : (h L.head).next = some x := by
      have := chain_next_eq h (x :: rest) L.head L.tail R.ch
      simpa using this
    set lastN := rest.getLastD x with hlastN
    have htpA : (h L.tail).prev = some lastN := by
      have := chain_prev_eq h (x :: rest) L.head L.tail R.ch
      rw [List.getLastD_cons] at this
      exact this
    have hxprev : (h x).prev = some L.head := R.ch.2.1
    have hlnext : (h lastN).next = some L.tail := by
      have := chain_getLastD_next h (x :: rest) L.head L.tail R.ch
      rw [List.getLastD_cons] at this
      exact this
    have i1 : setPrev h x (some L.head) = h := setPrev_id h x _ hxprev
    have i2 : setNext h L.head (some x) = h := setNext_id h L.head _ hhnA
    have i3 : setNext h lastN (some L.tail) = h := setNext_id h lastN _ hlnext
    have i4 : setPrev h L.tail (some lastN) = h := setPrev_id h L.tail _ htpA
    unfold opAssign
    rw [hne]
    simp only [Bool.false_eq_true, if_false, hhnA]
    simp only [i1, hhnA, i2, htpA, i3, i4]
    rfl

/-! ### Interior neighbours stay interior -/

theorem chain_next_mem_ne_last (h : Heap) :
    ∀ (xs : List Nat) (p q : Nat), chain h p xs q →
      ∀ c ∈ xs, c ≠ xs.getLastD p → ∃ d ∈ xs, (h c).next = some d
  | [], _, _, _, c, hc, _ => by simp at hc
  | x :: rest, p, q, hc, c, hmem, hlast => by
    rw [List.getLastD_cons] at hlast
    rcases List.mem_cons.mp hmem with he | he
    · subst he
      cases rest with
      | nil => exact absurd rfl hlast
      | cons y rest' =>
        refine ⟨y, by simp, ?_⟩
        have := chain_next_eq h (y :: rest') c q hc.2.2
        simpa using this
    · obtain ⟨d, hd, hnd⟩ :=
        chain_next_mem_ne_last h rest x q hc.2.2 c he hlast
      exact ⟨d, by simp [hd], hnd⟩

theorem chain_prev_mem_ne_head (h : Heap) :
    ∀ (xs : List Nat) (p q : Nat), chain h p xs q →
      ∀ c ∈ xs, c ≠ xs.headD q → ∃ d ∈ xs, (h c).prev = some d
  | [], _, _, _, c, hc, _ => by simp at hc
  | x :: rest, p, q, hc, c, hmem, hhead => by
    rw [List.headD_cons] at hhead
    rcases List.mem_cons.mp hmem with he | he
    · exact absurd he hhead
    · cases rest with
      | nil => simp at he
      | cons y rest' =>
        by_cases hcy : c = y
        · subst hcy
          exact ⟨x, by simp, hc.2.2.2.1⟩
        · obtain ⟨d, hd, hpd⟩ :=
            chain_prev_mem_ne_head h (y :: rest') x q hc.2.2 c he (by simpa using hcy)
          exact ⟨d, by simp [List.mem_cons.mp hd], hpd⟩

/-! ### `~list()` -/

/-- Destroying an empty list performs no writes at all. -/
theorem destruct_empty (h : Heap) (L : list) (R : rep h L []) :
    destruct h L = some h := by
  have h1 : (h L.head).next = some L.tail := R.ch.1
  have h2 : (h L.tail).prev = some L.head := R.ch.2
  unfold destruct
  rw [if_pos h1]
  simp [h2]

/-- Destroying a non-empty list writes exactly two fields: the first
element's `prev` and the last element's `next` become null; every other
record — interior neighbour links included — is untouched, and after the
writes no element's link references either sentinel. -/
theorem destruct_cons (h : Heap) (L : list) (x : Nat) (rest : List Nat)
    (R : rep h L (x :: rest)) :
    ∃ h', destruct h L = some h' ∧
      (h' x).prev = none ∧
      (h' (rest.getLastD x)).next = none ∧
      (∀ c, c ≠ x → c ≠ rest.getLastD x → h' c = h c) ∧
      (∀ c ∈ x :: rest,
        (h' c).next ≠ some L.head ∧ (h' c).next ≠ some L.tail ∧
        (h' c).prev ≠ some L.head ∧ (h' c).prev ≠ some L.tail) ∧
      (rest = [] → h' x = ⟨none, none⟩) := by
  set lastN := rest.getLastD x with hlastN
  have hndA := R.nd
  have hht : L.head ≠ L.tail := by
    simp only [List.nodup_cons, List.mem_cons] at hndA
    push_neg at hndA
    exact hndA.1.1
  have hh_nas : L.head ∉ x :: rest := by
    simp only [List.nodup_cons, List.mem_cons] at hndA
    push_neg at hndA
    intro hc
    rcases List.mem_cons.mp hc with hc | hc
    · exact hndA.1.2.1 hc
    · exact hndA.1.2.2 hc
  have ht_nas : L.tail ∉ x :: rest := by
    simp only [List.nodup_cons] at hndA
    exact fun hc => hndA.2.1 hc
  have hndxs : (x :: rest).Nodup := nodup_tail_xs _ _ _ (nodup_tail_xs _ _ _ hndA)
  have hmlast : lastN ∈ x :: rest := List.getLastD_mem_cons rest x
  have hxt : x ≠ L.tail := fun hc => ht_nas (by simp [← hc])
  have hlh : lastN ≠ L.head := fun hc => hh_nas (hc ▸ hmlast)
  have hth : L.tail ≠ x := Ne.symm hxt
  have hhn : (h L.head).next = some x := by
    have := chain_next_eq h (x :: rest) L.head L.tail R.ch
    simpa using this
  have htp : (h L.tail).prev = some lastN := by
    have := chain_prev_eq h (x :: rest) L.head L.tail R.ch
    rw [List.getLastD_cons] at this
    exact this
  set h1 := setPrev h x none with hh1
  set hF := setNext h1 lastN none with hhF
  have e1 : (h1 L.tail).prev = some lastN := by
    rw [hh1, setPrev_prev_ne _ _ _ _ hth]
    exact htp
  have hrun : destruct h L = some hF := by
    unfold destruct
    rw [hhn, if_neg (by simp [hxt])]
    simp only [← hh1, e1, if_neg (by simp [hlh] : ¬ (some lastN = some L.head)), ← hhF]
  have hxprev : (hF x).prev = none := by
    rw [hhF, setNext_prev, hh1, setPrev_prev_self]
  have hlnext : (hF lastN).next = none := by
    rw [hhF, setNext_next_self]
  have hframe : ∀ c, c ≠ x → c ≠ lastN → hF c = h c := by
    intro c hc1 hc2
    rw [hhF, setNext_ne _ _ _ _ hc2, hh1, setPrev_ne _ _ _ _ hc1]
  refine ⟨hF, hrun, hxprev, hlnext, hframe, ?_, ?_⟩
  · intro c hcmem
    have hnextval : (hF c).next = none ∨ ∃ d ∈ x :: rest, (hF c).next = some d := by
      by_cases hcl : c = lastN
      · subst hcl; exact Or.inl hlnext
      · obtain ⟨d, hd, hnd⟩ := chain_next_mem_ne_last h (x :: rest) L.head L.tail R.ch c
          hcmem (by rwa [List.getLastD_cons, ← hlastN])
        refine Or.inr ⟨d, hd, ?_⟩
        rw [hhF, setNext_next_ne _ _ _ _ hcl, hh1, setPrev_next]
        exact hnd
    have hprevval : (hF c).prev = none ∨ ∃ d ∈ x :: rest, (hF c).prev = some d := by
      by_cases hcx : c = x
      · subst hcx; exact Or.inl hxprev
      · obtain ⟨d, hd, hpd⟩ := chain_prev_mem_ne_head h (x :: rest) L.head L.tail R.ch c
          hcmem (by simpa using hcx)
        refine Or.inr ⟨d, hd, ?_⟩
        rw [hhF, setNext_prev, hh1, setPrev_prev_ne _ _ _ _ hcx]
        exact hpd
    refine ⟨?_, ?_, ?_, ?_⟩
    · rcases hnextval with hv | ⟨d, hd, hv⟩ <;> rw [hv]
      · simp
      · simp only [Ne, Option.some.injEq]
        exact fun hc => hh_nas (hc ▸ hd)
    · rcases hnextval with hv | ⟨d, hd, hv⟩ <;> rw [hv]
      · simp
      · simp only [Ne, Option.some.injEq]
        exact fun hc => ht_nas (hc ▸ hd)
    · rcases hprevval with hv | ⟨d, hd, hv⟩ <;> rw [hv]
      · simp
      · simp only [Ne, Option.some.injEq]
        exact fun hc => hh_nas (hc ▸ hd)
    · rcases hprevval with hv | ⟨d, hd, hv⟩ <;> rw [hv]
      · simp
      · simp only [Ne, Option.some.injEq]
        exact fun hc => ht_nas (hc ▸ hd)
  · intro hre
    subst hre
    have : lastN = x := by rw [hlastN]; rfl
    rw [this] at hhF
    cases hv : hF x
    have hn := hlnext
    have hp := hxprev
    rw [this] at hn
    rw [hv] at hn hp
    simp only at hn hp
    rw [hn, hp]

/-! ### `splice` -/

theorem rep_splice (h : Heap) (X Y : list)
    (pre : List Nat) (m0 : Nat) (mrest : List Nat) (post : List Nat)
    (yl yr : List Nat)
    (RX : rep h X (pre ++ (m0 :: mrest) ++ post))
    (RY : rep h Y (yl ++ yr))
    (hdisj : ∀ c ∈ X.head :: X.tail :: (pre ++ (m0 :: mrest) ++ post),
             ∀ d ∈ Y.head :: Y.tail :: (yl ++ yr), c ≠ d) :
    ∃ h', splice h Y (some (yr.headD Y.tail)) (some m0) (some (post.headD X.tail)) = some h' ∧
      rep h' X (pre ++ post) ∧ rep h' Y (yl ++ (m0 :: mrest) ++ yr) := by
  set xs := pre ++ (m0 :: mrest) ++ post with hxs
  set a := pre.getLastD X.head with hadef
  set tl := mrest.getLastD m0 with htldef
  set lst := post.headD X.tail with hlstdef
  set c := yl.getLastD Y.head with hcdef
  set po := yr.headD Y.tail with hpodef
  -- memberships of the six boundary roles
  have hmf : m0 ∈ xs := by rw [hxs]; simp
  have hma : a ∈ X.head :: pre := List.getLastD_mem_cons pre X.head
  have hmtl : tl ∈ m0 :: mrest := List.getLastD_mem_cons mrest m0
  have hmlst : lst ∈ X.tail :: post := by
    cases post with
    | nil => simp [hlstdef]
    | cons b post' => simp [hlstdef]
  have hmc : c ∈ Y.head :: yl := List.getLastD_mem_cons yl Y.head
  have hmpo : po ∈ Y.tail :: yr := by
    cases yr with
    | nil => simp [hpodef]
    | cons w yr' => simp [hpodef]
  -- nodup decomposition, X side
  have hXnd := RX.nd
  have hXht : X.head ≠ X.tail := by
    simp only [List.nodup_cons, List.mem_cons] at hXnd
    push_neg at hXnd
    exact hXnd.1.1
  have hXh_nxs : X.head ∉ xs := by
    simp only [List.nodup_cons, List.mem_cons] at hXnd
    push_neg at hXnd
    exact hXnd.1.2
  have hXt_nxs : X.tail ∉ xs := by
    simp only [List.nodup_cons] at hXnd
    exact hXnd.2.1
  have hndxs : xs.Nodup :=
    hXnd.sublist ((List.sublist_cons_self X.tail xs).trans (List.sublist_cons_self X.head _))
  have hmem_pre : ∀ d ∈ pre, d ∈ xs := by
    intro d hd; rw [hxs]; simp [hd]
  have hmem_mid : ∀ d ∈ m0 :: mrest, d ∈ xs := by
    intro d hd; rw [hxs]; simp only [List.mem_append]; left; right; exact hd
  have hmem_post : ∀ d ∈ post, d ∈ xs := by
    intro d hd; rw [hxs]; simp [hd]
  have hnd1 : (pre ++ (m0 :: mrest)).Nodup ∧ post.Nodup ∧
      ∀ d ∈ pre ++ (m0 :: mrest), ∀ e ∈ post, d ≠ e := by
    have := List.nodup_append.mp (hxs ▸ hndxs)
    exact ⟨this.1, this.2.1, fun d hd e he hde => this.2.2 hd (hde ▸ he)⟩
  have hnd2 : pre.Nodup ∧ (m0 :: mrest).Nodup ∧
      ∀ d ∈ pre, ∀ e ∈ m0 :: mrest, d ≠ e := by
    have := List.nodup_append.mp hnd1.1
    exact ⟨this.1, this.2.1, fun d hd e he hde => this.2.2 hd (hde ▸ he)⟩
  have hpre_post : ∀ d ∈ pre, ∀ e ∈ post, d ≠ e :=
    fun d hd e he => hnd1.2.2 d (by simp [hd]) e he
  have hmid_post : ∀ d ∈ m0 :: mrest, ∀ e ∈ post, d ≠ e :=
    fun d hd e he => hnd1.2.2 d (by simp [hd]) e he
  have hpre_mid : ∀ d ∈ pre, ∀ e ∈ m0 :: mrest, d ≠ e := hnd2.2.2
  -- nodup decomposition, Y side
  have hYnd := RY.nd
  have hYht : Y.head ≠ Y.tail := by
    simp only [List.nodup_cons, List.mem_cons] at hYnd
    push_neg at hYnd
    exact hYnd.1.1
  have hYh_nys : Y.head ∉ yl ++ yr := by
    simp only [List.nodup_cons, List.mem_cons] at hYnd
    push_neg at hYnd
    exact hYnd.1.2
  have hYt_nys : Y.tail ∉ yl ++ yr := by
    simp only [List.nodup_cons] at hYnd
    exact hYnd.2.1
  have hndys : (yl ++ yr).Nodup :=
    hYnd.sublist ((List.sublist_cons_self Y.tail _).trans (List.sublist_cons_self Y.head _))
  have hyl_yr : ∀ d ∈ yl, ∀ e ∈ yr, d ≠ e := by
    have := List.nodup_append.mp hndys
    exact fun d hd e he hde => this.2.2 hd (hde ▸ he)
  have hndyl : yl.Nodup := (List.nodup_append.mp hndys).1
  have hndyr : yr.Nodup := (List.nodup_append.mp hndys).2.1
  -- cross-list disequalities, generic form
  have cross : ∀ d ∈ X.head :: X.tail :: xs, ∀ e ∈ Y.head :: Y.tail :: (yl ++ yr), d ≠ e :=
    hdisj
  -- lifted memberships for the six roles
  have liftX : ∀ d ∈ xs, d ∈ X.head :: X.tail :: xs := fun d hd => by simp [hd]
  have liftY : ∀ d ∈ yl ++ yr, d ∈ Y.head :: Y.tail :: (yl ++ yr) := fun d hd => by simp [hd]
  have hma2 : a ∈ X.head :: X.tail :: xs := by
    rcases List.mem_cons.mp hma with he | he
    · simp [he]
    · exact liftX a (hmem_pre a he)
  have hmf2 : m0 ∈ X.head :: X.tail :: xs := liftX m0 hmf
  have hmtl2 : tl ∈ X.head :: X.tail :: xs := liftX tl (hmem_mid tl hmtl)
  have hmlst2 : lst ∈ X.head :: X.tail :: xs := by
    rcases List.mem_cons.mp hmlst with he | he
    · simp [he]
    · exact liftX lst (hmem_post lst he)
  have hmc2 : c ∈ Y.head :: Y.tail :: (yl ++ yr) := by
    rcases List.mem_cons.mp hmc with he | he
    · simp [he]
    · exact liftY c (by simp [he])
  have hmpo2 : po ∈ Y.head :: Y.tail :: (yl ++ yr) := by
    rcases List.mem_cons.mp hmpo with he | he
    · simp [he]
    · exact liftY po (by simp [he])
  -- within-X block disequalities
  have hX_mid_vs_preh : ∀ d ∈ m0 :: mrest, ∀ e ∈ X.head :: pre, d ≠ e := by
    intro d hd e he
    rcases List.mem_cons.mp he with he | he
    · rw [he]
      exact fun hc => hXh_nxs (hc ▸ hmem_mid d hd)
    · exact (hpre_mid e he d hd).symm
  have hX_mid_vs_postt : ∀ d ∈ m0 :: mrest, ∀ e ∈ X.tail :: post, d ≠ e := by
    intro d hd e he
    rcases List.mem_cons.mp he with he | he
    · rw [he]
      exact fun hc => hXt_nxs (hc ▸ hmem_mid d hd)
    · exact hmid_post d hd e he
  have hX_preh_vs_postt : ∀ d ∈ X.head :: pre, ∀ e ∈ X.tail :: post, d ≠ e := by
    intro d hd e he
    rcases List.mem_cons.mp hd with hd | hd
    · rw [hd]
      rcases List.mem_cons.mp he with he | he
      · rw [he]; exact hXht
      · exact fun hc => hXh_nxs (hc ▸ hmem_post e he)
    · rcases List.mem_cons.mp he with he | he
      · rw [he]; exact fun hc => hXt_nxs (hc ▸ hmem_pre d hd)
      · exact hpre_post d hd e he
  -- within-Y block disequalities
  have hY_ylh_vs_yrt : ∀ d ∈ Y.head :: yl, ∀ e ∈ Y.tail :: yr, d ≠ e := by
    intro d hd e he
    rcases List.mem_cons.mp hd with hd | hd
    · rw [hd]
      rcases List.mem_cons.mp he with he | he
      · rw [he]; exact hYht
      · exact fun hc => hYh_nys (hc ▸ (by simp [he] : e ∈ yl ++ yr))
    · rcases List.mem_cons.mp he with he | he
      · rw [he]; exact fun hc => hYt_nys (hc ▸ (by simp [hd] : d ∈ yl ++ yr))
      · exact hyl_yr d hd e he
  -- the six key boundary disequalities
  have htl_a : tl ≠ a := hX_mid_vs_preh tl hmtl a hma
  have ha_c : a ≠ c := cross a hma2 c hmc2
  have hlst_po : lst ≠ po := cross lst hmlst2 po hmpo2
  have hlst_f : lst ≠ m0 := (hX_mid_vs_postt m0 (by simp) lst hmlst).symm
  have hc_tl : c ≠ tl := (cross tl hmtl2 c hmc2).symm
  have hf_po : m0 ≠ po := cross m0 hmf2 po hmpo2
  have hpo_Yh : po ≠ Y.head := by
    rcases List.mem_cons.mp hmpo with he | he
    · rw [he]; exact Ne.symm hYht
    · exact fun hc => hYh_nys (hc ▸ (by simp [he] : po ∈ yl ++ yr))
  have hpo_f : po ≠ m0 := Ne.symm hf_po
  -- chain splits, X side
  have hsX : chain h X.head (pre ++ m0 :: (mrest ++ post)) X.tail := by
    have h0 := RX.ch
    rw [hxs] at h0
    rwa [List.append_assoc, List.cons_append] at h0
  have hs1 := (chain_append h m0 X.tail (mrest ++ post) pre X.head).mp hsX
  have hfp : (h m0).prev = some a := chain_prev_eq h pre X.head m0 hs1.1
  have hMid : chain h m0 mrest lst ∧
      (∀ b post', post = b :: post' → chain h b post' X.tail) := by
    cases post with
    | nil =>
      refine ⟨?_, by intro b post' hc; cases hc⟩
      have := hs1.2
      rw [List.append_nil] at this
      have hlt : lst = X.tail := by rw [hlstdef]; rfl
      rw [hlt]
      exact this
    | cons b post' =>
      have hsp := (chain_append h b X.tail post' mrest m0).mp hs1.2
      have hlb : lst = b := by rw [hlstdef]; rfl
      refine ⟨hlb ▸ hsp.1, ?_⟩
      intro b' post'' hc
      injection hc with hc1 hc2
      subst hc1; subst hc2
      exact hsp.2
  have htlprev : (h lst).prev = some tl := by
    have := chain_prev_eq h mrest m0 lst hMid.1
    rw [← htldef] at this
    exact this
  have htln : (h tl).next = some lst := by
    have := chain_getLastD_next h mrest m0 lst hMid.1
    rw [← htldef] at this
    exact this
  -- chain splits, Y side
  have hYsplit : chain h Y.head yl po ∧
      (∀ w yr', yr = w :: yr' → chain h w yr' Y.tail) := by
    cases yr with
    | nil =>
      refine ⟨?_, by intro w yr' hc; cases hc⟩
      have := RY.ch
      rw [List.append_nil] at this
      have hpt : po = Y.tail := by rw [hpodef]; rfl
      rw [hpt]
      exact this
    | cons w yr' =>
      have hsp := (chain_append h w Y.tail yr' yl Y.head).mp RY.ch
      have hpw : po = w := by rw [hpodef]; rfl
      refine ⟨hpw ▸ hsp.1, ?_⟩
      intro w' yr'' hc
      injection hc with hc1 hc2
      subst hc1; subst hc2
      exact hsp.2
  have hpoprev : (h po).prev = some c := by
    have := chain_prev_eq h yl Y.head po hYsplit.1
    rw [← hcdef] at this
    exact this
  -- the execution trace
  set h1 := setNext h a (some lst) with hh1
  have e1 : (h1 tl).next = some lst := by
    rw [hh1, setNext_next_ne _ _ _ _ htl_a]
    exact htln
  have e1b : (h1 m0).prev = some a := by
    rw [hh1, setNext_prev]
    exact hfp
  set h2 := setPrev h1 lst (some a) with hh2
  have e2 : (h2 po).prev = some c := by
    rw [hh2, setPrev_prev_ne _ _ _ _ (Ne.symm hlst_po), hh1, setNext_prev]
    exact hpoprev
  set h3 := setNext h2 c (some m0) with hh3
  have e3 : (h3 po).prev = some c := by
    rw [hh3, setNext_prev]
    exact e2
  set h4 := setPrev h3 m0 (some c) with hh4
  set h5 := setPrev h4 po (some tl) with hh5
  set hF := setNext h5 tl (some po) with hhF
  have hrun : splice h Y (some po) (some m0) (some lst) = some hF := by
    unfold splice
    rw [if_neg (by simp [hpo_Yh]), if_neg (by simp [hpo_f, hlst_f.symm])]
    simp only [htlprev, hfp, htln, ← hh1, e1, e1b, ← hh2, e2, ← hh3, e3, ← hh4,
      ← hh5, ← hhF]
  -- frame facts
  have frame_next : ∀ d, d ≠ a → d ≠ c → d ≠ tl → (hF d).next = (h d).next := by
    intro d hd1 hd2 hd3
    rw [hhF, setNext_next_ne _ _ _ _ hd3, hh5, setPrev_next, hh4, setPrev_next,
      hh3, setNext_next_ne _ _ _ _ hd2, hh2, setPrev_next, hh1,
      setNext_next_ne _ _ _ _ hd1]
  have frame_prev : ∀ d, d ≠ lst → d ≠ m0 → d ≠ po → (hF d).prev = (h d).prev := by
    intro d hd1 hd2 hd3
    rw [hhF, setNext_prev, hh5, setPrev_prev_ne _ _ _ _ hd3, hh4,
      setPrev_prev_ne _ _ _ _ hd2, hh3, setNext_prev, hh2,
      setPrev_prev_ne _ _ _ _ hd1, hh1, setNext_prev]
  -- the six junction values
  have j1 : (hF a).next = some lst := by
    rw [hhF, setNext_next_ne _ _ _ _ (Ne.symm htl_a), hh5, setPrev_next, hh4,
      setPrev_next, hh3, setNext_next_ne _ _ _ _ ha_c, hh2, setPrev_next, hh1,
      setNext_next_self]
  have j2 : (hF lst).prev = some a := by
    rw [hhF, setNext_prev, hh5, setPrev_prev_ne _ _ _ _ hlst_po, hh4,
      setPrev_prev_ne _ _ _ _ hlst_f, hh3, setNext_prev, hh2, setPrev_prev_self]
  have j3 : (hF c).next = some m0 := by
    rw [hhF, setNext_next_ne _ _ _ _ hc_tl, hh5, setPrev_next, hh4, setPrev_next,
      hh3, setNext_next_self]
  have j4 : (hF m0).prev = some c := by
    rw [hhF, setNext_prev, hh5, setPrev_prev_ne _ _ _ _ hf_po, hh4,
      setPrev_prev_self]
  have j5 : (hF po).prev = some tl := by
    rw [hhF, setNext_prev, hh5, setPrev_prev_self]
  have j6 : (hF tl).next = some po := by
    rw [hhF, setNext_next_self]
  -- more lifted membership helpers
  have liftPreh : ∀ d ∈ X.head :: pre, d ∈ X.head :: X.tail :: xs := by
    intro d hd
    rcases List.mem_cons.mp hd with he | he
    · simp [he]
    · exact liftX d (hmem_pre d he)
  have liftYlh : ∀ d ∈ Y.head :: yl, d ∈ Y.head :: Y.tail :: (yl ++ yr) := by
    intro d hd
    rcases List.mem_cons.mp hd with he | he
    · simp [he]
    · exact liftY d (by simp [he])
  have liftYrt : ∀ d ∈ Y.tail :: yr, d ∈ Y.head :: Y.tail :: (yl ++ yr) := by
    intro d hd
    rcases List.mem_cons.mp hd with he | he
    · simp [he]
    · exact liftY d (by simp [he])
  have hndpreh : (X.head :: pre).Nodup := by
    refine hXnd.sublist (List.Sublist.cons₂ X.head (List.Sublist.cons X.tail ?_))
    rw [hxs]
    exact (List.sublist_append_left pre (m0 :: mrest)).trans
      (List.sublist_append_left (pre ++ (m0 :: mrest)) post)
  have hndylh : (Y.head :: yl).Nodup :=
    hYnd.sublist (List.Sublist.cons₂ Y.head
      (List.Sublist.cons Y.tail (List.sublist_append_left yl yr)))
  -- rebuilt prefix chain of X, ending at lst
  have hpreX : chain hF X.head pre lst := by
    refine chain_retarget h hF lst pre X.head m0 hs1.1 hndpreh ?_ ?_ ?_ ?_
    · intro d hd hdl
      rw [← hadef] at hdl
      refine frame_next d hdl ?_ ?_
      · exact cross d (liftPreh d hd) c hmc2
      · exact (hX_mid_vs_preh tl hmtl d hd).symm
    · intro d hd
      refine frame_prev d ?_ ?_ ?_
      · exact hX_preh_vs_postt d (by simp [hd]) lst hmlst
      · exact hpre_mid d hd m0 (by simp)
      · exact cross d (liftX d (hmem_pre d hd)) po hmpo2
    · rw [← hadef]; exact j1
    · rw [← hadef]; exact j2
  -- rebuilt chain of the moved range, ending at po
  have hmidY : chain hF m0 mrest po := by
    refine chain_retarget h hF po mrest m0 lst hMid.1 hnd2.2.1 ?_ ?_ ?_ ?_
    · intro d hd hdl
      rw [← htldef] at hdl
      refine frame_next d ?_ ?_ hdl
      · exact hX_mid_vs_preh d hd a hma
      · exact cross d (liftX d (hmem_mid d hd)) c hmc2
    · intro d hd
      refine frame_prev d ?_ ?_ ?_
      · exact hX_mid_vs_postt d (by simp [hd]) lst hmlst
      · exact fun hc => (List.nodup_cons.mp hnd2.2.1).1 (hc ▸ hd)
      · exact cross d (liftX d (hmem_mid d (by simp [hd]))) po hmpo2
    · rw [← htldef]; exact j6
    · rw [← htldef]; exact j5
  -- rebuilt prefix chain of Y, ending at m0
  have hylY : chain hF Y.head yl m0 := by
    refine chain_retarget h hF m0 yl Y.head po hYsplit.1 hndylh ?_ ?_ ?_ ?_
    · intro d hd hdl
      rw [← hcdef] at hdl
      refine frame_next d ?_ hdl ?_
      · exact (cross a hma2 d (liftYlh d hd)).symm
      · exact (cross tl hmtl2 d (liftYlh d hd)).symm
    · intro d hd
      refine frame_prev d ?_ ?_ ?_
      · exact (cross lst hmlst2 d (liftY d (by simp [hd]))).symm
      · exact (cross m0 hmf2 d (liftY d (by simp [hd]))).symm
      · exact hY_ylh_vs_yrt d (by simp [hd]) po hmpo
    · rw [← hcdef]; exact j3
    · rw [← hcdef]; exact j4
  refine ⟨hF, hrun, ⟨?_, ?_, ?_, ?_⟩, ⟨?_, ?_, ?_, ?_⟩⟩
  · -- chain hF X.head (pre ++ post) X.tail
    cases post with
    | nil =>
      rw [List.append_nil]
      have hlt : lst = X.tail := by rw [hlstdef]; rfl
      rw [hlt] at hpreX
      exact hpreX
    | cons b post' =>
      have hlb : lst = b := by rw [hlstdef]; rfl
      rw [chain_append]
      refine ⟨hlb ▸ hpreX, ?_⟩
      refine chain_frame h hF post' b X.tail (hMid.2 b post' rfl) ?_ ?_
      · intro d hd
        refine frame_next d ?_ ?_ ?_
        · exact (hX_preh_vs_postt a hma d (by simp [hd])).symm
        · exact cross d (liftX d (hmem_post d hd)) c hmc2
        · exact (hX_mid_vs_postt tl hmtl d (by simp [hd])).symm
      · intro d hd
        simp only [List.mem_append, List.mem_singleton] at hd
        have hdX : d ∈ X.head :: X.tail :: xs := by
          rcases hd with hd | hd
          · exact liftX d (hmem_post d (by simp [hd]))
          · simp [hd]
        refine frame_prev d ?_ ?_ ?_
        · rw [hlb]
          rcases hd with hd | hd
          · exact fun hc => (List.nodup_cons.mp hnd1.2.1).1 (hc ▸ hd)
          · rw [hd]
            exact fun hc => hXt_nxs (hc ▸ hmem_post b (by simp))
        · rcases hd with hd | hd
          · exact (hX_mid_vs_postt m0 (by simp) d (by simp [hd])).symm
          · rw [hd]
            exact fun hc => hXt_nxs (hc ▸ hmem_mid m0 (by simp))
        · exact cross d hdX po hmpo2
  · -- nodup of X's new representation
    refine hXnd.sublist (List.Sublist.cons₂ X.head (List.Sublist.cons₂ X.tail ?_))
    rw [hxs, List.append_assoc]
    exact List.Sublist.append_left (List.sublist_append_right (m0 :: mrest) post) pre
  · -- X.head outer pointer
    have := frame_prev X.head (hX_preh_vs_postt X.head (by simp) lst hmlst)
      ((hX_mid_vs_preh m0 (by simp) X.head (by simp)).symm)
      (cross X.head (by simp) po hmpo2)
    rw [this]
    exact RX.hp
  · -- X.tail outer pointer
    have := frame_next X.tail ((hX_preh_vs_postt a hma X.tail (by simp)).symm)
      (cross X.tail (by simp) c hmc2)
      ((hX_mid_vs_postt tl hmtl X.tail (by simp)).symm)
    rw [this]
    exact RX.tn
  · -- chain hF Y.head (yl ++ (m0 :: mrest) ++ yr) Y.tail
    rw [List.append_assoc, List.cons_append, chain_append]
    refine ⟨hylY, ?_⟩
    cases yr with
    | nil =>
      rw [List.append_nil]
      have hpt : po = Y.tail := by rw [hpodef]; rfl
      rw [hpt] at hmidY
      exact hmidY
    | cons w yr' =>
      have hpw : po = w := by rw [hpodef]; rfl
      rw [chain_append]
      refine ⟨hpw ▸ hmidY, ?_⟩
      refine chain_frame h hF yr' w Y.tail (hYsplit.2 w yr' rfl) ?_ ?_
      · intro d hd
        have hdY : d ∈ Y.head :: Y.tail :: (yl ++ w :: yr') := liftY d (by simp [hd])
        refine frame_next d ?_ ?_ ?_
        · exact (cross a hma2 d hdY).symm
        · exact (hY_ylh_vs_yrt c hmc d (by simp [hd])).symm
        · exact (cross tl hmtl2 d hdY).symm
      · intro d hd
        simp only [List.mem_append, List.mem_singleton] at hd
        have hdY : d ∈ Y.head :: Y.tail :: (yl ++ w :: yr') := by
          rcases hd with hd | hd
          · exact liftY d (by simp [hd])
          · simp [hd]
        refine frame_prev d ?_ ?_ ?_
        · exact (cross lst hmlst2 d hdY).symm
        · exact (cross m0 hmf2 d hdY).symm
        · rw [hpw]
          rcases hd with hd | hd
          · exact fun hc => (List.nodup_cons.mp hndyr).1 (hc ▸ hd)
          · rw [hd]
            exact fun hc => hYt_nys (hc ▸ (by simp : w ∈ yl ++ w :: yr'))
  · -- nodup of Y's new representation
    have hYh_nmid : Y.head ∉ m0 :: mrest :=
      fun hc => cross Y.head (liftX _ (hmem_mid _ hc)) Y.head (by simp) rfl
    have hYt_nmid : Y.tail ∉ m0 :: mrest :=
      fun hc => cross Y.tail (liftX _ (hmem_mid _ hc)) Y.tail (by simp) rfl
    rw [List.nodup_cons, List.nodup_cons]
    refine ⟨?_, ?_, ?_⟩
    · intro hc
      rcases List.mem_cons.mp hc with hc | hc
      · exact hYht hc
      · simp only [List.mem_append] at hc
        rcases hc with (hc | hc) | hc
        · exact hYh_nys (by simp [hc])
        · exact hYh_nmid hc
        · exact hYh_nys (by simp [hc])
    · intro hc
      simp only [List.mem_append] at hc
      rcases hc with (hc | hc) | hc
      · exact hYt_nys (by simp [hc])
      · exact hYt_nmid hc
      · exact hYt_nys (by simp [hc])
    · rw [List.append_assoc, List.nodup_append]
      refine ⟨hndyl, ?_, ?_⟩
      · rw [List.nodup_append]
        refine ⟨hnd2.2.1, hndyr, ?_⟩
        intro d hd hdyr
        exact cross d (liftX d (hmem_mid d hd)) d (liftY d (by simp [hdyr])) rfl
      · intro d hd hdm
        rw [List.mem_append] at hdm
        rcases hdm with hdm | hdm
        · exact cross d (liftX d (hmem_mid d hdm)) d (liftY d (by simp [hd])) rfl
        · exact hyl_yr d hd d hdm rfl
  · -- Y.head outer pointer
    have := frame_prev Y.head ((cross lst hmlst2 Y.head (by simp)).symm)
      ((cross m0 hmf2 Y.head (by simp)).symm)
      (hY_ylh_vs_yrt Y.head (by simp) po hmpo)
    rw [this]
    exact RY.hp
  · -- Y.tail outer pointer
    have := frame_next Y.tail ((cross a hma2 Y.tail (by simp)).symm)
      ((hY_ylh_vs_yrt c hmc Y.tail (by simp)).symm)
      ((cross tl hmtl2 Y.tail (by simp)).symm)
    rw [this]
    exact RY.tn

/-- Move-assignment between two fully-represented disjoint lists: the
destination takes over the source's elements, the source empties, and
every record of the destination's former elements is untouched. -/
theorem opAssign_move_full (h : Heap) (A B : list) (x : Nat) (rest bs : List Nat)
    (RA : rep h A (x :: rest)) (RB : rep h B bs)
    (hdisj : ∀ c ∈ A.head :: A.tail :: x :: rest, ∀ d ∈ B.head :: B.tail :: bs, c ≠ d) :
    ∃ h', opAssign h B A = some h' ∧ rep h' B (x :: rest) ∧ rep h' A [] ∧
      (∀ y ∈ bs, h' y = h y) ∧
      (∀ c, c ≠ x → c ≠ rest.getLastD x → c ≠ A.head → c ≠ A.tail →
        c ≠ B.head → c ≠ B.tail → h' c = h c) := by
  have hBht : B.head ≠ B.tail := by
    have hndB := RB.nd
    simp only [List.nodup_cons, List.mem_cons] at hndB
    push_neg at hndB
    exact hndB.1.1
  have hdisj2 : ∀ c ∈ A.head :: A.tail :: x :: rest, ∀ d ∈ [B.head, B.tail], c ≠ d := by
    intro c hc d hd
    refine hdisj c hc d ?_
    rcases List.mem_cons.mp hd with he | he
    · simp [he]
    · simp only [List.mem_singleton] at he
      simp [he]
  obtain ⟨h', hrun, RB', RA', hframe⟩ :=
    opAssign_move h A B x rest RA hBht RB.hp RB.tn hdisj2
  refine ⟨h', hrun, RB', RA', ?_, hframe⟩
  intro y hy
  have hyB : y ∈ B.head :: B.tail :: bs := by simp [hy]
  have hymem : ∀ e ∈ A.head :: A.tail :: x :: rest, y ≠ e :=
    fun e he => (hdisj e he y hyB).symm
  refine hframe y ?_ ?_ ?_ ?_ ?_ ?_
  · exact hymem x (by simp)
  · have hml : rest.getLastD x ∈ x :: rest := List.getLastD_mem_cons rest x
    rcases List.mem_cons.mp hml with he | he
    · refine hymem _ ?_
      rw [he]
      simp
    · refine hymem _ ?_
      simp only [List.mem_cons]
      exact Or.inr (Or.inr (Or.inr he))
  · exact hymem A.head (by simp)
  · exact hymem A.tail (by simp)
  · -- y ≠ B.head since y ∈ bs and B's representation has no duplicates
    have hndB := RB.nd
    simp only [List.nodup_cons, List.mem_cons] at hndB
    push_neg at hndB
    exact fun hc => hndB.1.2 (hc ▸ hy)
  · have hndB := RB.nd
    simp only [List.nodup_cons] at hndB
    exact fun hc => hndB.2.1 (hc ▸ hy)

/-- Move-construction: fresh sentinels are allocated null-initialised and
`operator=` transfers the chain; the new list represents the source's
elements and the source is left empty. -/
theorem moveCtor_move (h : Heap) (A : list) (x : Nat) (rest : List Nat) (nh nt : Nat)
    (RA : rep h A (x :: rest))
    (hfh : nh ∉ A.head :: A.tail :: x :: rest)
    (hft : nt ∉ A.head :: A.tail :: x :: rest)
    (hne : nh ≠ nt) :
    ∃ h', moveCtor h A nh nt = some (h', ⟨nh, nt⟩) ∧
      rep h' ⟨nh, nt⟩ (x :: rest) ∧ rep h' A [] := by
  set h0 := hset (hset h nh ⟨none, none⟩) nt ⟨none, none⟩ with hh0
  have hsame : ∀ c ∈ A.head :: A.tail :: x :: rest, h0 c = h c := by
    intro c hc
    rw [hh0, hset_ne _ _ _ _ (fun he => hft (by rw [← he]; exact hc)),
      hset_ne _ _ _ _ (fun he => hfh (by rw [← he]; exact hc))]
  have RA0 : rep h0 A (x :: rest) := by
    refine ⟨?_, RA.nd, ?_, ?_⟩
    · refine chain_frame h h0 (x :: rest) A.head A.tail RA.ch ?_ ?_
      · intro a ha
        rw [hsame a (by
          rcases List.mem_cons.mp ha with he | he
          · simp [he]
          · simp [he])]
      · intro a ha
        simp only [List.mem_append, List.mem_singleton] at ha
        rcases ha with ha | ha
        · rw [hsame a (by simp [ha])]
        · rw [hsame a (by simp [ha])]
    · rw [hsame A.head (by simp)]; exact RA.hp
    · rw [hsame A.tail (by simp)]; exact RA.tn
  have hBhp : (h0 nh).prev = none := by
    rw [hh0]
    by_cases he : nh = nt
    · subst he; rw [hset_self]
    · rw [hset_ne _ _ _ _ he, hset_self]
  have hBtn : (h0 nt).next = none := by
    rw [hh0, hset_self]
  have hdisj2 : ∀ c ∈ A.head :: A.tail :: x :: rest, ∀ d ∈ [nh, nt], c ≠ d := by
    intro c hc d hd
    rcases List.mem_cons.mp hd with he | he
    · rw [he]; exact fun hcc => hfh (hcc ▸ hc)
    · simp only [List.mem_singleton] at he
      rw [he]; exact fun hcc => hft (hcc ▸ hc)
  obtain ⟨h', hrun, RB', RA', _⟩ :=
    opAssign_move h0 A ⟨nh, nt⟩ x rest RA0 hne hBhp hBtn hdisj2
  refine ⟨h', ?_, RB', RA'⟩
  unfold moveCtor
  rw [← hh0]
  simp only [hrun]

/-! ### Claim C1 -/

/-- Claim C1 as stated is false: destroying the two-element list [2, 3]
leaves element 2 with `next` still pointing at element 3 — its Link is
not in the unlinked state, although it was still linked at destruction
time. -/
theorem C1_counterexample :
    rep exH2 exL [2, 3] ∧
    (destruct exH2 exL).map (fun h' => (h' 2).next) = some (some 3) :=
  ⟨⟨by decide, by decide, by decide, by decide⟩, by decide⟩

/-- Claim C1 (amended): destruction tolerates an empty list (no writes at
all); on a non-empty list it writes exactly two fields — the first
element's `prev` and the last element's `next` become absent — so no
surviving element references the destroyed sentinels, a single
still-linked element ends fully unlinked, every other record (interior
element-to-element links included) is left unchanged, and no element is
destroyed or deallocated (the heap model never frees element cells). -/
theorem C1_destructor_detaches_only_boundaries :
    (∀ (h : Heap) (L : list), rep h L [] → destruct h L = some h) ∧
    (∀ (h : Heap) (L : list) (x : Nat) (rest : List Nat), rep h L (x :: rest) →
      ∃ h', destruct h L = some h' ∧
        (h' x).prev = none ∧
        (h' (rest.getLastD x)).next = none ∧
        (∀ c, c ≠ x → c ≠ rest.getLastD x → h' c = h c) ∧
        (∀ c ∈ x :: rest,
          (h' c).next ≠ some L.head ∧ (h' c).next ≠ some L.tail ∧
          (h' c).prev ≠ some L.head ∧ (h' c).prev ≠ some L.tail) ∧
        (rest = [] → h' x = ⟨none, none⟩)) :=
  ⟨destruct_empty, destruct_cons⟩

/-- Witness for C1 (amended) on the concrete two-element list [2, 3]. -/
theorem C1_destructor_witness :
    rep exH2 exL (2 :: [3]) ∧
    (∃ h', destruct exH2 exL = some h' ∧
      (h' 2).prev = none ∧
      (h' ([3].getLastD 2)).next = none ∧
      (∀ c, c ≠ 2 → c ≠ [3].getLastD 2 → h' c = exH2 c) ∧
      (∀ c ∈ 2 :: [3],
        (h' c).next ≠ some exL.head ∧ (h' c).next ≠ some exL.tail ∧
        (h' c).prev ≠ some exL.head ∧ (h' c).prev ≠ some exL.tail) ∧
      ([3] = [] → h' 2 = ⟨none, none⟩)) := by
  have R : rep exH2 exL (2 :: [3]) := ⟨by decide, by decide, by decide, by decide⟩
  exact ⟨R, C1_destructor_detaches_only_boundaries.2 exH2 exL 2 [3] R⟩

/-! ### Claim C2 -/

/-- Claim C2 as stated is false: after `clear()` on the one-element list
[2], element 2 is no longer in the list (its traversal is empty) but its
Link is neither unlinked nor linked into the ring — it still points at
the list's sentinels 0 and 1. -/
theorem C2_counterexample :
    rep exH1 exL [2] ∧
    (clear exH1 exL 2).next = some 1 ∧
    (clear exH1 exL 2).prev = some 0 ∧
    travList (clear exH1 exL) exL 1 = some [] :=
  ⟨⟨by decide, by decide, by decide, by decide⟩, by decide, by decide, by decide⟩

/-- Claim C2 (amended): `clear` and move-assignment preserve the
per-list structural invariant — afterwards the destination represents
the transferred elements and the source/cleared list is validly empty —
but the elements detached in bulk keep their old Link contents
unchanged (they are not reset to the unlinked state), so their Links may
still point into a list they no longer belong to. -/
theorem C2_per_list_invariant_with_stale_links :
    (∀ (h : Heap) (L : list) (xs : List Nat), rep h L xs →
      rep (clear h L) L [] ∧ ∀ y ∈ xs, clear h L y = h y) ∧
    (∀ (h : Heap) (A B : list) (x : Nat) (rest bs : List Nat),
      rep h A (x :: rest) → rep h B bs →
      (∀ c ∈ A.head :: A.tail :: x :: rest, ∀ d ∈ B.head :: B.tail :: bs, c ≠ d) →
      ∃ h', opAssign h B A = some h' ∧ rep h' B (x :: rest) ∧ rep h' A [] ∧
        ∀ y ∈ bs, h' y = h y) := by
  constructor
  · intro h L xs R
    obtain ⟨R0, hframe⟩ := rep_clear h L xs R
    refine ⟨R0, ?_⟩
    intro y hy
    have hnd := R.nd
    simp only [List.nodup_cons, List.mem_cons] at hnd
    push_neg at hnd
    exact hframe y (fun hc => hnd.1.2 (hc ▸ hy)) (fun hc => hnd.2.1 (hc ▸ hy))
  · intro h A B x rest bs RA RB hdisj
    obtain ⟨h', hrun, RB', RA', hbs, _⟩ := opAssign_move_full h A B x rest bs RA RB hdisj
    exact ⟨h', hrun, RB', RA', hbs⟩

/-- Witness for C2 (amended) on the one-element list [2]. -/
theorem C2_witness :
    rep exH1 exL [2] ∧
    (rep (clear exH1 exL) exL [] ∧ ∀ y ∈ [2], clear exH1 exL y = exH1 y) := by
  have R : rep exH1 exL [2] := ⟨by decide, by decide, by decide, by decide⟩
  exact ⟨R, C2_per_list_invariant_with_stale_links.1 exH1 exL [2] R⟩

/-! ### Claim C3 -/

/-- Claim C3: move-assigning a non-empty list A into B makes B's forward
traversal equal to A's original sequence in order, leaves A in the valid
empty state, and writes only the four sentinels and A's two boundary
elements (so no per-element copying or iteration occurs — the set of
touched records is bounded independently of the lengths).
Move-construction allocates two fresh null-initialised sentinels and
behaves the same way. -/
theorem C3_move_transfers_chain :
    (∀ (h : Heap) (A B : list) (x : Nat) (rest bs : List Nat),
      rep h A (x :: rest) → rep h B bs →
      (∀ c ∈ A.head :: A.tail :: x :: rest, ∀ d ∈ B.head :: B.tail :: bs, c ≠ d) →
      ∃ h', opAssign h B A = some h' ∧
        travList h' B (x :: rest).length = some (x :: rest) ∧
        rep h' A [] ∧ emptyb h' A = true ∧
        (∀ c, c ≠ x → c ≠ rest.getLastD x → c ≠ A.head → c ≠ A.tail →
          c ≠ B.head → c ≠ B.tail → h' c = h c)) ∧
    (∀ (h : Heap) (A : list) (x : Nat) (rest : List Nat) (nh nt : Nat),
      rep h A (x :: rest) →
      nh ∉ A.head :: A.tail :: x :: rest → nt ∉ A.head :: A.tail :: x :: rest →
      nh ≠ nt →
      ∃ h', moveCtor h A nh nt = some (h', ⟨nh, nt⟩) ∧
        travList h' ⟨nh, nt⟩ (x :: rest).length = some (x :: rest) ∧
        rep h' A []) := by
  constructor
  · intro h A B x rest bs RA RB hdisj
    obtain ⟨h', hrun, RB', RA', _, hframe⟩ :=
      opAssign_move_full h A B x rest bs RA RB hdisj
    exact ⟨h', hrun, rep_travList h' B (x :: rest) RB', RA',
      (rep_empty_iff h' A [] RA').mpr rfl, hframe⟩
  · intro h A x rest nh nt RA hfh hft hne
    obtain ⟨h', hrun, RB', RA'⟩ := moveCtor_move h A x rest nh nt RA hfh hft hne
    exact ⟨h', hrun, rep_travList h' ⟨nh, nt⟩ (x :: rest) RB', RA'⟩

/-- Witness for C3 on the concrete heap where A = [2, 3, 4], B = [5]. -/
theorem C3_witness :
    rep exHXY exL (2 :: [3, 4]) ∧ rep exHXY exLY [5] ∧
    (∃ h', opAssign exHXY exLY exL = some h' ∧
      travList h' exLY (2 :: [3, 4]).length = some (2 :: [3, 4]) ∧
      rep h' exL [] ∧ emptyb h' exL = true ∧
      (∀ c, c ≠ 2 → c ≠ [3, 4].getLastD 2 → c ≠ exL.head → c ≠ exL.tail →
        c ≠ exLY.head → c ≠ exLY.tail → h' c = exHXY c)) := by
  have RA : rep exHXY exL (2 :: [3, 4]) := ⟨by decide, by decide, by decide, by decide⟩
  have RB : rep exHXY exLY [5] := ⟨by decide, by decide, by decide, by decide⟩
  exact ⟨RA, RB, C3_move_transfers_chain.1 exHXY exL exLY 2 [3, 4] [5] RA RB (by decide)⟩

/-! ### Claim C4 -/

/-- Claim C4: move-assignment from an empty source is literally
`clear()` on the destination, and self-move-assignment of a represented
list also produces exactly the cleared heap; in both cases the
destination ends in the valid empty state with its head and tail
sentinels linked to each other. -/
theorem C4_move_degenerate_cases_clear :
    (∀ (h : Heap) (dst src : list), emptyb h src = true →
      opAssign h dst src = some (clear h dst)) ∧
    (∀ (h : Heap) (B : list) (bs : List Nat), rep h B bs → rep (clear h B) B []) ∧
    (∀ (h : Heap) (L : list) (xs : List Nat), rep h L xs →
      opAssign h L L = some (clear h L) ∧ rep (clear h L) L []) :=
  ⟨opAssign_empty_src,
   fun h B bs R => (rep_clear h B bs R).1,
   fun h L xs R => ⟨opAssign_self h L xs R, (rep_clear h L xs R).1⟩⟩

/-- Witness for C4: an empty source and a non-empty self-move. -/
theorem C4_witness :
    (emptyb exHE exL = true ∧ opAssign exHE exL exL = some (clear exHE exL)) ∧
    (rep exH2 exL [2, 3] ∧ rep (clear exH2 exL) exL []) ∧
    (opAssign exH2 exL exL = some (clear exH2 exL) ∧ rep (clear exH2 exL) exL []) := by
  have R : rep exH2 exL [2, 3] := ⟨by decide, by decide, by decide, by decide⟩
  exact ⟨⟨by decide, C4_move_degenerate_cases_clear.1 exHE exL exL (by decide)⟩,
    ⟨R, C4_move_degenerate_cases_clear.2.1 exH2 exL [2, 3] R⟩,
    C4_move_degenerate_cases_clear.2.2 exH2 exL [2, 3] R⟩

/-! ### Claim C5 -/

/-- Claim C5: `splice(position, other, first, last)` is a no-op (heap
unchanged) when `position == first` or `first == last`; otherwise the
contiguous sub-range `[first, last)` is moved to just before `position`:
the source keeps its remaining elements in their original relative
order, the destination's traversal interleaves the moved range — in its
original relative order — before the position, and the total element
count over both lists is preserved. -/
theorem C5_splice_spec :
    (∀ (h : Heap) (Y : list) (pos first lst : Option Nat),
      pos ≠ some Y.head → (pos = first ∨ first = lst) →
      splice h Y pos first lst = some h) ∧
    (∀ (h : Heap) (X Y : list) (pre : List Nat) (m0 : Nat)
        (mrest post yl yr : List Nat),
      rep h X (pre ++ (m0 :: mrest) ++ post) → rep h Y (yl ++ yr) →
      (∀ c ∈ X.head :: X.tail :: (pre ++ (m0 :: mrest) ++ post),
        ∀ d ∈ Y.head :: Y.tail :: (yl ++ yr), c ≠ d) →
      ∃ h', splice h Y (some (yr.headD Y.tail)) (some m0)
              (some (post.headD X.tail)) = some h' ∧
        travList h' X (pre ++ post).length = some (pre ++ post) ∧
        travList h' Y (yl ++ (m0 :: mrest) ++ yr).length =
          some (yl ++ (m0 :: mrest) ++ yr) ∧
        (pre ++ post).length + (yl ++ (m0 :: mrest) ++ yr).length =
          (pre ++ (m0 :: mrest) ++ post).length + (yl ++ yr).length) := by
  constructor
  · intro h Y pos first lst hne hor
    unfold splice
    rw [if_neg hne, if_pos hor]
  · intro h X Y pre m0 mrest post yl yr RX RY hdisj
    obtain ⟨h', hrun, RX', RY'⟩ := rep_splice h X Y pre m0 mrest post yl yr RX RY hdisj
    refine ⟨h', hrun, rep_travList h' X (pre ++ post) RX',
      rep_travList h' Y (yl ++ (m0 :: mrest) ++ yr) RY', ?_⟩
    simp [List.length_append]
    omega

/-- Witness for C5: the no-op guard, and moving the range [3, 4) out of
X = [2, 3, 4] to the end of Y = [5]. -/
theorem C5_witness :
    (splice exH2 exL (some 2) (some 2) (some 3) = some exH2) ∧
    rep exHXY exL ([2] ++ (3 :: []) ++ [4]) ∧ rep exHXY exLY ([5] ++ []) ∧
    (∃ h', splice exHXY exLY (some (([] : List Nat).headD exLY.tail)) (some 3)
        (some ([4].headD exL.tail)) = some h' ∧
      travList h' exL ([2] ++ [4]).length = some ([2] ++ [4]) ∧
      travList h' exLY ([5] ++ (3 :: []) ++ []).length =
        some ([5] ++ (3 :: []) ++ []) ∧
      ([2] ++ [4]).length + ([5] ++ (3 :: []) ++ []).length =
        ([2] ++ (3 :: []) ++ [4]).length + ([5] ++ ([] : List Nat)).length) := by
  have RX : rep exHXY exL ([2] ++ (3 :: []) ++ [4]) :=
    ⟨by decide, by decide, by decide, by decide⟩
  have RY : rep exHXY exLY ([5] ++ []) := ⟨by decide, by decide, by decide, by decide⟩
  refine ⟨C5_splice_spec.1 exH2 exL (some 2) (some 2) (some 3) (by decide) (Or.inl rfl),
    RX, RY, C5_splice_spec.2 exHXY exL exLY [2] 3 [] [4] [5] [] RX RY (by decide)⟩

/-! ### Claim C6 -/

/-- Claim C6: `erase` at a valid element cursor returns the heap after
the unlink together with a cursor to the element following the erased
one (the end cursor when it was last), the erased element's Link is left
with both references absent, and the list's forward traversal equals the
original order with that one element removed. -/
theorem C6_erase_spec :
    ∀ (h : Heap) (L : list) (l : List Nat) (x : Nat) (r : List Nat),
      rep h L (l ++ x :: r) →
      ∃ h', erase h L (some x) = some (h', some (r.headD L.tail)) ∧
        (h' x).next = none ∧ (h' x).prev = none ∧
        travList h' L (l ++ r).length = some (l ++ r) := by
  intro h L l x r R
  obtain ⟨hrun, R', hx⟩ := rep_erase h L l x r R
  refine ⟨unlink h x, hrun, ?_, ?_, rep_travList _ _ _ R'⟩
  · rw [hx]
  · rw [hx]

/-- Witness for C6: erasing element 2 from the two-element list [2, 3]. -/
theorem C6_witness :
    rep exH2 exL ([] ++ 2 :: [3]) ∧
    (∃ h', erase exH2 exL (some 2) = some (h', some ([3].headD exL.tail)) ∧
      (h' 2).next = none ∧ (h' 2).prev = none ∧
      travList h' exL ([] ++ [3]).length = some ([] ++ [3])) := by
  have R : rep exH2 exL ([] ++ 2 :: [3]) := ⟨by decide, by decide, by decide, by decide⟩
  exact ⟨R, C6_erase_spec exH2 exL [] 2 [3] R⟩

/-! ### Claim C7 -/

/-- Claim C7: under the stated preconditions (pushes only of unlinked
elements, pops only on non-empty lists), every sequence of
push_back / push_front / pop_back / pop_front succeeds, the list's
forward traversal afterwards equals a reference double-ended queue
subjected to the same sequence, and the backward traversal (following
`prev` from the tail sentinel) is exactly the reverse of the forward
sequence. -/
theorem C7_deque_semantics :
    ∀ (h : Heap) (L : list) (xs : List Nat) (ops : List Op),
      rep h L xs → runOKb h L ops = true →
      ∃ h', runOps h L ops = some h' ∧
        travList h' L (dq xs ops).length = some (dq xs ops) ∧
        travListB h' L (dq xs ops).length = some (dq xs ops).reverse := by
  intro h L xs ops R hok
  obtain ⟨h', hrun, R'⟩ := run_sim L ops h xs R hok
  exact ⟨h', hrun, rep_travList _ _ _ R', rep_travListB _ _ _ R'⟩

/-- Witness for C7: the sequence push_back 5, push_front 7, pop_back on
an initially empty list. -/
theorem C7_witness :
    rep exHE exL [] ∧
    runOKb exHE exL [Op.push_back 5, Op.push_front 7, Op.pop_back] = true ∧
    (∃ h', runOps exHE exL [Op.push_back 5, Op.push_front 7, Op.pop_back] = some h' ∧
      travList h' exL (dq [] [Op.push_back 5, Op.push_front 7, Op.pop_back]).length =
        some (dq [] [Op.push_back 5, Op.push_front 7, Op.pop_back]) ∧
      travListB h' exL (dq [] [Op.push_back 5, Op.push_front 7, Op.pop_back]).length =
        some (dq [] [Op.push_back 5, Op.push_front 7, Op.pop_back]).reverse) := by
  have R : rep exHE exL [] := ⟨by decide, by decide, by decide, by decide⟩
  have hok : runOKb exHE exL [Op.push_back 5, Op.push_front 7, Op.pop_back] = true := by
    decide
  exact ⟨R, hok,
    C7_deque_semantics exHE exL [] [Op.push_back 5, Op.push_front 7, Op.pop_back] R hok⟩

/-! ### Claim C8 -/

/-- Claim C8: `unlink()` on a Link whose two neighbour references are
present (and distinct from the Link itself, as in any well-formed list)
rewires the two neighbours to point at each other, then sets its own
two references to absent, touching no other record; on an
already-unlinked Link it is the identity on the whole heap (idempotent,
no other Link mutated).  Being a total function, it never fails. -/
theorem C8_unlink_contract :
    (∀ (h : Heap) (x n p : Nat),
      (h x).next = some n → (h x).prev = some p → x ≠ n → x ≠ p →
      (unlink h x) x = ⟨none, none⟩ ∧
      ((unlink h x) p).next = some n ∧
      ((unlink h x) n).prev = some p ∧
      (∀ a, a ≠ x → a ≠ p → ((unlink h x) a).next = (h a).next) ∧
      (∀ a, a ≠ x → a ≠ n → ((unlink h x) a).prev = (h a).prev)) ∧
    (∀ (h : Heap) (x : Nat), (h x).next = none → (h x).prev = none →
      unlink h x = h) := by
  constructor
  · intro h x n p hn hp hxn hxp
    exact ⟨unlink_at h x n p hn hp,
      unlink_next_p h x n p hn hp (Ne.symm hxp),
      unlink_prev_n h x n p hn hp (Ne.symm hxn),
      fun a hax hap => unlink_next_other h x n p hn hp a hax hap,
      fun a hax han => unlink_prev_other h x n p hn hp a hax han⟩
  · exact unlink_unlinked

/-- Witness for C8: unlinking the linked element 2 of [2, 3] (neighbours
0 and 3), and unlinking the already-unlinked address 7. -/
theorem C8_witness :
    ((exH2 2).next = some 3 ∧ (exH2 2).prev = some 0 ∧
      ((unlink exH2 2) 2 = ⟨none, none⟩ ∧
        ((unlink exH2 2) 0).next = some 3 ∧
        ((unlink exH2 2) 3).prev = some 0 ∧
        (∀ a, a ≠ 2 → a ≠ 0 → ((unlink exH2 2) a).next = (exH2 a).next) ∧
        (∀ a, a ≠ 2 → a ≠ 3 → ((unlink exH2 2) a).prev = (exH2 a).prev))) ∧
    ((exH2 7).next = none ∧ (exH2 7).prev = none ∧ unlink exH2 7 = exH2) :=
  ⟨⟨by decide, by decide,
    C8_unlink_contract.1 exH2 2 3 0 (by decide) (by decide) (by decide) (by decide)⟩,
   ⟨by decide, by decide, C8_unlink_contract.2 exH2 7 (by decide) (by decide)⟩⟩

/-! ### Claim C9 -/

/-- Claim C9: in the debug-build model, every precondition-violating
call fails its assertion (yields `none`) instead of proceeding:
`front`, `back`, `pop_front`, `pop_back` on an empty list, and `erase`
of a cursor naming either sentinel; under the spec's preconditions
(non-empty list, cursor at a linked element) each of these operations
succeeds. -/
theorem C9_debug_assertions :
    (∀ (h : Heap) (L : list), emptyb h L = true →
      front h L = none ∧ back h L = none ∧
      pop_front h L = none ∧ pop_back h L = none) ∧
    (∀ (h : Heap) (L : list) (pos : Option Nat),
      pos = some L.head ∨ pos = some L.tail → erase h L pos = none) ∧
    (∀ (h : Heap) (L : list) (x : Nat) (rest : List Nat), rep h L (x :: rest) →
      front h L = some x ∧ back h L = some (rest.getLastD x) ∧
      (∃ h', pop_front h L = some h') ∧ (∃ h', pop_back h L = some h') ∧
      (∀ y ∈ x :: rest, ∃ res, erase h L (some y) = some res)) := by
  refine ⟨?_, ?_, ?_⟩
  · intro h L he
    refine ⟨?_, ?_, ?_, ?_⟩
    · simp [front, he]
    · simp [back, he]
    · simp [pop_front, he]
    · simp [pop_back, he]
  · intro h L pos hor
    unfold erase
    rw [if_pos (by tauto)]
  · intro h L x rest R
    have hemp := rep_not_empty h L (x :: rest) R (by simp)
    have hhn : (h L.head).next = some x := by
      have := chain_next_eq h (x :: rest) L.head L.tail R.ch
      simpa using this
    have htp : (h L.tail).prev = some (rest.getLastD x) := by
      have := chain_prev_eq h (x :: rest) L.head L.tail R.ch
      rwa [List.getLastD_cons] at this
    refine ⟨?_, ?_, ?_, ?_, ?_⟩
    · simp [front, hemp, hhn]
    · simp [back, hemp, htp]
    · exact ⟨unlink h x, (rep_pop_front h L x rest R).1⟩
    · obtain ⟨ys, y, he⟩ : ∃ ys y, x :: rest = ys ++ [y] := by
        rcases List.eq_nil_or_concat (x :: rest) with he | ⟨ys, y, he⟩
        · cases he
        · exact ⟨ys, y, by rw [he, List.concat_eq_append]⟩
      rw [he] at R
      exact ⟨unlink h y, (rep_pop_back h L ys y R).1⟩
    · intro y hy
      have hnd := R.nd
      have hyh : ¬(some y = some L.tail ∨ some y = some L.head) := by
        simp only [List.nodup_cons, List.mem_cons] at hnd
        push_neg at hnd
        simp only [Option.some.injEq]
        push_neg
        constructor
        · intro hc
          rcases List.mem_cons.mp hy with he | he
          · exact hnd.2.1.1 (by rw [← hc, he])
          · exact hnd.2.1.2 (by rw [← hc]; exact he)
        · intro hc
          rcases List.mem_cons.mp hy with he | he
          · exact hnd.1.2.1 (by rw [← hc, he])
          · exact hnd.1.2.2 (by rw [← hc]; exact he)
      refine ⟨(unlink h y, (h y).next), ?_⟩
      unfold erase
      rw [if_neg hyh]
  
/-- Witness for C9: the four empty-list assertion failures, erasing the
head-sentinel cursor, and all successes on the list [2, 3]. -/
theorem C9_witness :
    (emptyb exHE exL = true ∧
      (front exHE exL = none ∧ back exHE exL = none ∧
       pop_front exHE exL = none ∧ pop_back exHE exL = none)) ∧
    erase exH2 exL (some exL.head) = none ∧
    (rep exH2 exL (2 :: [3]) ∧
      (front exH2 exL = some 2 ∧ back exH2 exL = some ([3].getLastD 2) ∧
       (∃ h', pop_front exH2 exL = some h') ∧ (∃ h', pop_back exH2 exL = some h') ∧
       (∀ y ∈ 2 :: [3], ∃ res, erase exH2 exL (some y) = some res))) := by
  have R : rep exH2 exL (2 :: [3]) := ⟨by decide, by decide, by decide, by decide⟩
  exact ⟨⟨by decide, C9_debug_assertions.1 exHE exL (by decide)⟩,
    C9_debug_assertions.2.1 exH2 exL (some exL.head) (Or.inl rfl),
    ⟨R, C9_debug_assertions.2.2 exH2 exL 2 [3] R⟩⟩

/-! ### Claim C10 -/

/-- Claim C10: `clear()` rewires only the two sentinels, and
move-assignment into a (non-empty) destination additionally touches only
the source's boundary records: every record of the elements previously
linked in the destination is left bit-for-bit unchanged — in particular
their `next`/`prev` fields are still present (pointing at their former
neighbours or sentinels), not reset to the unlinked state. -/
theorem C10_bulk_detach_keeps_links :
    (∀ (h : Heap) (B : list) (bs : List Nat), rep h B bs →
      (∀ a, a ≠ B.head → a ≠ B.tail → clear h B a = h a) ∧
      (∀ y ∈ bs, clear h B y = h y ∧
        (clear h B y).next ≠ none ∧ (clear h B y).prev ≠ none)) ∧
    (∀ (h : Heap) (A B : list) (x : Nat) (rest bs : List Nat),
      rep h A (x :: rest) → rep h B bs →
      (∀ c ∈ A.head :: A.tail :: x :: rest, ∀ d ∈ B.head :: B.tail :: bs, c ≠ d) →
      ∃ h', opAssign h B A = some h' ∧
        ∀ y ∈ bs, h' y = h y ∧ (h' y).next ≠ none ∧ (h' y).prev ≠ none) := by
  constructor
  · intro h B bs R
    obtain ⟨_, hframe⟩ := rep_clear h B bs R
    have hyok : ∀ y ∈ bs, clear h B y = h y := by
      intro y hy
      have hnd := R.nd
      simp only [List.nodup_cons, List.mem_cons] at hnd
      push_neg at hnd
      exact hframe y (fun hc => hnd.1.2 (hc ▸ hy)) (fun hc => hnd.2.1 (hc ▸ hy))
    refine ⟨hframe, ?_⟩
    intro y hy
    obtain ⟨n, hn⟩ := chain_mem_next h bs B.head B.tail R.ch y hy
    obtain ⟨p, hp⟩ := chain_mem_prev h bs B.head B.tail R.ch y hy
    refine ⟨hyok y hy, ?_, ?_⟩
    · rw [hyok y hy, hn]; simp
    · rw [hyok y hy, hp]; simp
  · intro h A B x rest bs RA RB hdisj
    obtain ⟨h', hrun, _, _, hbs, _⟩ := opAssign_move_full h A B x rest bs RA RB hdisj
    refine ⟨h', hrun, ?_⟩
    intro y hy
    obtain ⟨n, hn⟩ := chain_mem_next h bs B.head B.tail RB.ch y hy
    obtain ⟨p, hp⟩ := chain_mem_prev h bs B.head B.tail RB.ch y hy
    refine ⟨hbs y hy, ?_, ?_⟩
    · rw [hbs y hy, hn]; simp
    · rw [hbs y hy, hp]; simp

/-- Witness for C10: clearing the list [5] and move-assigning [2, 3, 4]
over it. -/
theorem C10_witness :
    rep exHXY exLY [5] ∧
    ((∀ a, a ≠ exLY.head → a ≠ exLY.tail → clear exHXY exLY a = exHXY a) ∧
      (∀ y ∈ [5], clear exHXY exLY y = exHXY y ∧
        (clear exHXY exLY y).next ≠ none ∧ (clear exHXY exLY y).prev ≠ none)) ∧
    rep exHXY exL (2 :: [3, 4]) ∧
    (∃ h', opAssign exHXY exLY exL = some h' ∧
      ∀ y ∈ [5], h' y = exHXY y ∧ (h' y).next ≠ none ∧ (h' y).prev ≠ none) := by
  have RB : rep exHXY exLY [5] := ⟨by decide, by decide, by decide, by decide⟩
  have RA : rep exHXY exL (2 :: [3, 4]) := ⟨by decide, by decide, by decide, by decide⟩
  exact ⟨RB, C10_bulk_detach_keeps_links.1 exHXY exLY [5] RB, RA,
    C10_bulk_detach_keeps_links.2 exHXY exL exLY 2 [3, 4] [5] RA RB (by decide)⟩
